import Mathlib

/-!
Verification of the pattern-matching and instantiation engine of an e-graph
library (`src/pattern.rs`).  The definitions below are a shallow embedding of
that file: `Pattern`, `WildMap`, the recursive matcher `search_pat`, the
instantiator `apply_pat`, the ground substitution `subst_and_find`, and the
`search` / `apply_one` façade.  Rust panics (assert failures, `unwrap`,
out-of-bounds indexing) are modelled by `Option`, with `none` standing for a
panic.  The e-graph itself, its `add` operation and the term type `RecExpr`
are external to the verified file and are modelled from the specification.
-/

set_option maxHeartbeats 1000000

namespace EggPattern

/-- Class identifiers (`Id` in the source); modelled as natural numbers. -/
abbrev Id := Nat

/-- Wildcard names (`QuestionMarkName`): an opaque identifier compared by
name; modelled as a string. -/
abbrev QuestionMarkName := String

/-- The two wildcard kinds of `WildcardKind` in the source. -/
inductive WildcardKind where
  | Single
  | ZeroOrMore
deriving DecidableEq

/-- Modelled from the spec: an e-node has an operator label and an ordered
sequence of children (`ENode<L, C>`, external to the verified file). -/
structure ENode (L : Type) (C : Type) where
  op : L
  children : List C
deriving DecidableEq

/-- `Pattern<L>` from the source: either a concrete node whose children are
themselves patterns (the `ENode(Box<ENode<L, Pattern<L>>>)` constructor with
the boxed node inlined as operator and children), or a named wildcard. -/
inductive Pattern (L : Type) where
  | ENode (op : L) (children : List (Pattern L))
  | Wildcard (w : QuestionMarkName) (kind : WildcardKind)

/-- Modelled from the spec: `RecExpr<L>` is a recursive ground term, an
operator applied to a list of sub-terms (external to the verified file). -/
inductive RecExpr (L : Type) where
  | mk (op : L) (children : List (RecExpr L))

/-- Modelled from the spec: one congruence class of the e-graph, holding its
identifier and its set of e-nodes (kept as a list). -/
structure EClass (L : Type) where
  id : Id
  nodes : List (ENode L Id)
deriving DecidableEq

/-- Modelled from the spec: the e-graph collaborator, specified only at its
boundary: a collection of classes, plus a hash-cons table and a fresh-id
counter supporting `add`. -/
structure EGraph (L : Type) where
  classes : List (EClass L)
  memo : List (ENode L Id × Id)
  fresh : Id
deriving DecidableEq

/-- Linear scan of the class list by identifier (the graph's `index[class]`
operation at the boundary). -/
def classesFind {L : Type} : List (EClass L) → Id → Option (List (ENode L Id))
  | [], _ => none
  | cl :: cls, c => if cl.id = c then some cl.nodes else classesFind cls c

/-- Look up the e-node set of a class; `none` models the panic of indexing a
class that is not in the graph. -/
def EGraph.lookupClass {L : Type} (g : EGraph L) (c : Id) : Option (List (ENode L Id)) :=
  classesFind g.classes c

/-- Linear scan of the hash-cons table for a structurally identical node. -/
def memoFind {L : Type} [DecidableEq L] :
    List (ENode L Id × Id) → ENode L Id → Option Id
  | [], _ => none
  | (m, i) :: rest, n => if m = n then some i else memoFind rest n

/-- Modelled from the spec: `add(node) -> ClassId` performs hash-consed
insertion, returning the existing canonical class when a structurally
identical node is present and creating a fresh class otherwise. -/
def EGraph.add {L : Type} [DecidableEq L] (g : EGraph L) (n : ENode L Id) :
    Id × EGraph L :=
  match memoFind g.memo n with
  | some i => (i, g)
  | none =>
    (g.fresh,
      ⟨g.classes ++ [⟨g.fresh, [n]⟩], g.memo ++ [(n, g.fresh)], g.fresh + 1⟩)

/-- `Pattern::is_multi_wildcard`: true only for a `ZeroOrMore` wildcard. -/
def Pattern.is_multi_wildcard {L : Type} : Pattern L → Bool
  | .Wildcard _ .ZeroOrMore => true
  | _ => false

/-- The binding table `WildMap`: an ordered sequence of
(name, kind, bound ids) triples. -/
structure WildMap where
  vec : List (QuestionMarkName × WildcardKind × List Id)
deriving DecidableEq

/-- The scan behind `WildMap::get`, over the underlying triple list. -/
def getIds :
    List (QuestionMarkName × WildcardKind × List Id) → QuestionMarkName →
    WildcardKind → Option (Option (List Id))
  | [], _, _ => some none
  | (w2, kind2, ids2) :: rest, w, kind =>
    if w = w2 then
      if kind = kind2 then some (some ids2) else none
    else getIds rest w kind

/-- `WildMap::get`: linear lookup by name.  The outer `none` models the panic
of the `assert_eq!(kind, *kind2)` when the stored kind differs from the
requested one; the inner option is absence of the name. -/
def WildMap.get (m : WildMap) (w : QuestionMarkName) (kind : WildcardKind) :
    Option (Option (List Id)) :=
  getIds m.vec w kind

/-- `WildMap::insert`: if the name is already bound, return the existing id
sequence without mutating; otherwise append the new triple.  The outer `none`
models the panic inside the `get` it performs. -/
def WildMap.insert (m : WildMap) (w : QuestionMarkName) (kind : WildcardKind)
    (ids : List Id) : Option (Option (List Id) × WildMap) :=
  match m.get w kind with
  | none => none
  | some (some old) => some (some old, m)
  | some none => some (none, ⟨m.vec ++ [(w, kind, ids)]⟩)

/-- The scan behind the `Index<&QuestionMarkName>` impl on `WildMap`. -/
def findIds : List (QuestionMarkName × WildcardKind × List Id) →
    QuestionMarkName → Option (List Id)
  | [], _ => none
  | (w2, _, ids2) :: rest, w => if w = w2 then some ids2 else findIds rest w

/-- The `Index<&QuestionMarkName>` impl on `WildMap`: lookup by name alone,
ignoring the kind; `none` models the panic on a missing name. -/
def WildMap.find (m : WildMap) (w : QuestionMarkName) : Option (List Id) :=
  findIds m.vec w

/-- `SearchMatches`: one matched class together with every binding table
found for it. -/
structure SearchMatches where
  eclass : Id
  mappings : List WildMap
deriving DecidableEq

/-- The zero-children scan of `search_pat`: walk the class's e-nodes and, at
the first one that has no children and the pattern's operator, yield a single
empty binding table and stop (the `break` in the source). -/
def findLeaf {L : Type} [DecidableEq L] (op : L) :
    List (ENode L Id) → List WildMap
  | [] => []
  | e :: rest =>
    if e.children = [] ∧ e.op = op then [⟨[]⟩] else findLeaf op rest

/-- The first `ZeroOrMore` wildcard among a node pattern's children together
with its position (the `filter_map …  .next()` of the source), scanning from
index `i`. -/
def findMulti {L : Type} : List (Pattern L) → Nat →
    Option (Nat × QuestionMarkName)
  | [], _ => none
  | .Wildcard q .ZeroOrMore :: _, i => some (i, q)
  | _ :: ps, i => findMulti ps (i + 1)

/-- The cartesian product of a list of candidate lists, in the order of
`multi_cartesian_product`: the first coordinate varies slowest. -/
def cartesian {α : Type} : List (List α) → List (List α)
  | [] => [[]]
  | l :: ls => l.flatMap fun x => (cartesian ls).map fun ms => x :: ms

/-- Merge the triples of one candidate table into the combined table,
left to right.  `none` models a panic inside `insert`; `some none` is the
`continue 'outer` taken when a name is already bound to a different id
sequence; `some (some t)` is the successfully merged table. -/
def mergeEntries (combined : WildMap) :
    List (QuestionMarkName × WildcardKind × List Id) → Option (Option WildMap)
  | [] => some (some combined)
  | (w, kind, ids) :: rest =>
    match combined.insert w kind ids with
    | none => none
    | some (some old, c) =>
      if old = ids then mergeEntries c rest else some none
    | some (none, c) => mergeEntries c rest

/-- Merge a tuple of candidate tables into `combined`, left to right (the
inner loop of the cartesian-product combination). -/
def mergeMaps (combined : WildMap) : List WildMap → Option (Option WildMap)
  | [] => some (some combined)
  | m :: rest =>
    match mergeEntries combined m.vec with
    | none => none
    | some none => some none
    | some (some c) => mergeMaps c rest

/-- Process every tuple of the cartesian product: start from a clone of the
tuple's first table, merge the rest, keep the merged table unless the tuple
was discarded.  `none` on an empty tuple models the panic of `ms[0]`. -/
def processTuples : List (List WildMap) → Option (List WildMap)
  | [] => some []
  | ms :: rest =>
    match ms with
    | [] => none
    | m0 :: mrest =>
      match mergeMaps m0 mrest with
      | none => none
      | some none => processTuples rest
      | some (some t) =>
        match processTuples rest with
        | none => none
        | some ts => some (t :: ts)

/-- The `'outer` loop of `search_pat`: cartesian product of the per-position
candidate tables followed by left-to-right merging. -/
def combineAll (arg_mappings : List (List WildMap)) : Option (List WildMap) :=
  processTuples (cartesian arg_mappings)

mutual

/-- `search_pat` from the source: match one pattern against one e-class,
returning every consistent binding table; `none` models a panic. -/
def search_pat {L : Type} [DecidableEq L] (pat : Pattern L) (g : EGraph L)
    (eclass : Id) : Option (List WildMap) :=
  match pat with
  | .Wildcard w kind =>
    if kind = WildcardKind.Single then
      match WildMap.insert ⟨[]⟩ w kind [eclass] with
      | none => none
      | some (some _, _) => none
      | some (none, var_mapping) => some [var_mapping]
    else none
  | .ENode op cs =>
    match g.lookupClass eclass with
    | none => none
    | some enodes =>
      if cs.isEmpty then some (findLeaf op enodes)
      else search_enodes op cs g (enodes.filter fun e => e.op = op)
termination_by (sizeOf pat, 3, 0)

/-- The per-class loop of `search_pat` over the e-nodes whose operator equals
the pattern's, accumulating each e-node's tables in order. -/
def search_enodes {L : Type} [DecidableEq L] (op : L) (cs : List (Pattern L))
    (g : EGraph L) (es : List (ENode L Id)) : Option (List WildMap) :=
  match es with
  | [] => some []
  | e :: rest =>
    match search_enode_one op cs g e with
    | none => none
    | some ts =>
      match search_enodes op cs g rest with
      | none => none
      | some more => some (ts ++ more)
termination_by (sizeOf cs, 2, es.length)

/-- The body of `search_pat`'s e-node loop for one e-node: the
tail-wildcard arity analysis, the per-position recursive matching, and the
cartesian-product combination. -/
def search_enode_one {L : Type} [DecidableEq L] (op : L)
    (cs : List (Pattern L)) (g : EGraph L) (e : ENode L Id) :
    Option (List WildMap) :=
  let n_multi := cs.countP fun p => p.is_multi_wildcard
  if n_multi > 0 then
    if n_multi = 1 then
      match findMulti cs 0 with
      | none => none
      | some (position, q) =>
        if position = cs.length - 1 then
          if cs.length - 1 > e.children.length then some []
          else
            match search_pat_list cs g (e.children.take (cs.length - 1)) with
            | none => none
            | some arg_mappings =>
              combineAll (arg_mappings ++
                [[⟨[(q, WildcardKind.ZeroOrMore,
                      e.children.drop (cs.length - 1))]⟩]])
        else none
    else none
  else
    if cs.length = e.children.length then
      match search_pat_list cs g e.children with
      | none => none
      | some arg_mappings => combineAll arg_mappings
    else some []
termination_by (sizeOf cs, 1, 0)

/-- The per-position recursive matching: zip the pattern children with the
e-node's child classes (truncating at the shorter list, as `zip` does) and
collect each position's candidate tables. -/
def search_pat_list {L : Type} [DecidableEq L] (ps : List (Pattern L))
    (g : EGraph L) (ids : List Id) : Option (List (List WildMap)) :=
  match ps, ids with
  | [], _ => some []
  | _ :: _, [] => some []
  | p :: ps, c :: cs =>
    match search_pat p g c with
    | none => none
    | some ts =>
      match search_pat_list ps g cs with
      | none => none
      | some tss => some (ts :: tss)
termination_by (sizeOf ps, 0, 0)

end

/-- `search_eclass` from the `Searcher` impl: run the matcher on one class
and wrap a non-empty table list into a `SearchMatches`.  The outer option
models a panic, the inner the no-match case. -/
def search_eclass {L : Type} [DecidableEq L] (pat : Pattern L) (g : EGraph L)
    (eclass : Id) : Option (Option SearchMatches) :=
  match search_pat pat g eclass with
  | none => none
  | some mappings =>
    if mappings.isEmpty then some none
    else some (some ⟨eclass, mappings⟩)

/-- The `filter_map` of `search` over a list of classes. -/
def searchClasses {L : Type} [DecidableEq L] (pat : Pattern L) (g : EGraph L) :
    List (EClass L) → Option (List SearchMatches)
  | [] => some []
  | cl :: cls =>
    match search_eclass pat g cl.id with
    | none => none
    | some none => searchClasses pat g cls
    | some (some m) =>
      match searchClasses pat g cls with
      | none => none
      | some ms => some (m :: ms)

/-- `search` from the `Searcher` impl: run the matcher on every class of the
graph, keeping the classes with at least one binding table. -/
def search {L : Type} [DecidableEq L] (pat : Pattern L) (g : EGraph L) :
    Option (List SearchMatches) :=
  searchClasses pat g g.classes

mutual

/-- `apply_pat` from the source: instantiate a pattern against one binding
table, threading the e-graph through the child instantiations; `none` models
a panic (an unbound wildcard or a kind mismatch). -/
def apply_pat {L : Type} [DecidableEq L] (pat : Pattern L) (g : EGraph L)
    (mapping : WildMap) : Option (List Id × EGraph L) :=
  match pat with
  | .Wildcard w kind =>
    match mapping.get w kind with
    | none => none
    | some none => none
    | some (some ids) => some (ids, g)
  | .ENode op cs =>
    match apply_pat_list cs g mapping with
    | none => none
    | some (children, g1) =>
      let r := g1.add ⟨op, children⟩
      some ([r.1], r.2)
termination_by sizeOf pat

/-- The `flat_map` over a node pattern's children inside `apply_pat`:
instantiate each child in order, concatenating the resulting id sequences
and threading the graph left to right. -/
def apply_pat_list {L : Type} [DecidableEq L] (ps : List (Pattern L))
    (g : EGraph L) (mapping : WildMap) : Option (List Id × EGraph L) :=
  match ps with
  | [] => some ([], g)
  | p :: rest =>
    match apply_pat p g mapping with
    | none => none
    | some (ids, g1) =>
      match apply_pat_list rest g1 mapping with
      | none => none
      | some (ids2, g2) => some (ids ++ ids2, g2)
termination_by sizeOf ps

end

/-- `apply_one` from the `Applier` impl: the matched class argument is
ignored (it is `_` in the source) and the consequent pattern is instantiated
against the binding table. -/
def apply_one {L : Type} [DecidableEq L] (pat : Pattern L) (g : EGraph L)
    (_eclass : Id) (mapping : WildMap) : Option (List Id × EGraph L) :=
  apply_pat pat g mapping

mutual

/-- `Pattern::subst_and_find`: substitute a `Single`-wildcard-only pattern
against a binding table and return one class id.  `none` models the panics:
the `assert_eq!(kind, Single)`, the `unwrap` of an unbound name, and the
`[0]` indexing of an empty id sequence. -/
def Pattern.subst_and_find {L : Type} [DecidableEq L] (pat : Pattern L)
    (g : EGraph L) (mapping : WildMap) : Option (Id × EGraph L) :=
  match pat with
  | .Wildcard w kind =>
    if kind = WildcardKind.Single then
      match mapping.get w kind with
      | none => none
      | some none => none
      | some (some ids) =>
        match ids with
        | [] => none
        | i :: _ => some (i, g)
    else none
  | .ENode op cs =>
    match subst_list cs g mapping with
    | none => none
    | some (ids, g1) => some (g1.add ⟨op, ids⟩)
termination_by sizeOf pat

/-- The `map_children` of `subst_and_find` over a node's children, threading
the e-graph left to right. -/
def subst_list {L : Type} [DecidableEq L] (ps : List (Pattern L))
    (g : EGraph L) (mapping : WildMap) : Option (List Id × EGraph L) :=
  match ps with
  | [] => some ([], g)
  | p :: rest =>
    match p.subst_and_find g mapping with
    | none => none
    | some (i, g1) =>
      match subst_list rest g1 mapping with
      | none => none
      | some (ids, g2) => some (i :: ids, g2)
termination_by sizeOf ps

end

mutual

/-- `Pattern::from_expr`: lift a ground term into a wildcard-free pattern by
structural recursion. -/
def Pattern.from_expr {L : Type} : RecExpr L → Pattern L
  | .mk op cs => .ENode op (from_expr_list cs)
termination_by e => sizeOf e

/-- The `map_children` of `from_expr` over a term's children. -/
def from_expr_list {L : Type} : List (RecExpr L) → List (Pattern L)
  | [] => []
  | e :: es => Pattern.from_expr e :: from_expr_list es
termination_by es => sizeOf es

end

mutual

/-- `Pattern::to_expr`: recover a ground term from a pattern, failing with a
message naming the wildcard when one remains. -/
def Pattern.to_expr {L : Type} : Pattern L → Except String (RecExpr L)
  | .ENode op cs =>
    match to_expr_list cs with
    | .error msg => .error msg
    | .ok es => .ok (.mk op es)
  | .Wildcard w _ =>
    .error ("Found wildcard " ++ w ++ " instead of expr term")
termination_by p => sizeOf p

/-- The `map_children_result` of `to_expr`: children left to right, first
error propagates. -/
def to_expr_list {L : Type} : List (Pattern L) → Except String (List (RecExpr L))
  | [] => .ok []
  | p :: ps =>
    match p.to_expr with
    | .error msg => .error msg
    | .ok e =>
      match to_expr_list ps with
      | .error msg => .error msg
      | .ok es => .ok (e :: es)
termination_by ps => sizeOf ps

end

mutual

/-- Every wildcard occurrence of a pattern, with its kind, in left-to-right
order (an observation function used to state the specification claims). -/
def wildcards {L : Type} : Pattern L → List (QuestionMarkName × WildcardKind)
  | .Wildcard w kind => [(w, kind)]
  | .ENode _ cs => wildcardsList cs
termination_by p => sizeOf p

/-- `wildcards` over a list of patterns. -/
def wildcardsList {L : Type} :
    List (Pattern L) → List (QuestionMarkName × WildcardKind)
  | [] => []
  | p :: ps => wildcards p ++ wildcardsList ps
termination_by ps => sizeOf ps

end

/-- The wildcard names occurring in a pattern. -/
def patVars {L : Type} (p : Pattern L) : List QuestionMarkName :=
  (wildcards p).map fun e => e.1

/-- A pattern whose wildcards are all of kind `Single`. -/
def onlySingle {L : Type} (p : Pattern L) : Bool :=
  (wildcards p).all fun e => e.2 = WildcardKind.Single

/-- A pattern containing at least one `ZeroOrMore` wildcard. -/
def hasMulti {L : Type} (p : Pattern L) : Bool :=
  (wildcards p).any fun e => e.2 = WildcardKind.ZeroOrMore

/-- A pattern containing at least one wildcard of either kind. -/
def hasWildcard {L : Type} (p : Pattern L) : Bool :=
  !(wildcards p).isEmpty

/-- The `Single`-arity invariant of a binding table: every `Single` entry
binds exactly one id. -/
def singleOk (m : WildMap) : Prop :=
  ∀ e ∈ m.vec, e.2.1 = WildcardKind.Single → e.2.2.length = 1

/-- Each name occurs at most once in a binding table. -/
def uniqNames (m : WildMap) : Prop :=
  (m.vec.map fun e => e.1).Nodup

/-! ### Concrete example data used by the witnesses -/

/-- The invariant of every binding table the matcher returns for a pattern:
every wildcard name of the pattern is bound, `Single` entries bind exactly
one id, and each name occurs at most once. -/
def GoodTable {L : Type} (p : Pattern L) (t : WildMap) : Prop :=
  (∀ w ∈ patVars p, t.find w ≠ none) ∧ singleOk t ∧ uniqNames t

def wG : EGraph String := ⟨[⟨0, [⟨"f", [1, 2, 3]⟩]⟩], [], 4⟩

def wE : ENode String Id := ⟨"f", [1, 2, 3]⟩

def wG3 : EGraph String := ⟨[⟨0, [⟨"x", []⟩]⟩], [], 1⟩

def wG4 : EGraph String := ⟨[⟨0, [⟨"f", [1]⟩, ⟨"f", [2]⟩]⟩], [], 3⟩

def wG5 : EGraph String := ⟨[], [], 1⟩

def wM5 : WildMap :=
  ⟨[("?a", WildcardKind.Single, [0]), ("?r", WildcardKind.ZeroOrMore, [5, 6])]⟩

def wG6 : EGraph String := ⟨[⟨0, [⟨"c", []⟩]⟩, ⟨1, [⟨"d", [0]⟩]⟩], [], 2⟩

def wG9 : EGraph String := ⟨[], [], 5⟩

/-! ### Induction principles for the nested inductives -/

theorem pattern_induction {L : Type} {motive : Pattern L → Prop}
    (hw : ∀ w kind, motive (.Wildcard w kind))
    (hn : ∀ op cs, (∀ p ∈ cs, motive p) → motive (.ENode op cs)) :
    ∀ p, motive p := by
  have key : ∀ (n : Nat) (p : Pattern L), sizeOf p ≤ n → motive p := by
    intro n
    induction n with
    | zero =>
      intro p hp
      cases p <;> simp at hp
    | succ n ih =>
      intro p hp
      cases p with
      | Wildcard w kind => exact hw w kind
      | ENode op cs =>
        refine hn op cs fun q hq => ih q ?_
        have h1 : sizeOf q < sizeOf cs := List.sizeOf_lt_of_mem hq
        have h2 : sizeOf (Pattern.ENode op cs) = 1 + sizeOf op + sizeOf cs := by
          simp
        omega
  exact fun p => key (sizeOf p) p le_rfl

theorem recexpr_induction {L : Type} {motive : RecExpr L → Prop}
    (hn : ∀ op cs, (∀ e ∈ cs, motive e) → motive (.mk op cs)) :
    ∀ e, motive e := by
  have key : ∀ (n : Nat) (e : RecExpr L), sizeOf e ≤ n → motive e := by
    intro n
    induction n with
    | zero =>
      intro e he
      cases e; simp at he
    | succ n ih =>
      intro e he
      cases e with
      | mk op cs =>
        refine hn op cs fun q hq => ih q ?_
        have h1 : sizeOf q < sizeOf cs := List.sizeOf_lt_of_mem hq
        have h2 : sizeOf (RecExpr.mk op cs) = 1 + sizeOf op + sizeOf cs := by
          simp
        omega
  exact fun e => key (sizeOf e) e le_rfl

/-! ### Lemmas about the binding-table scans -/

theorem findIds_append_of_some {l l' : List (QuestionMarkName × WildcardKind × List Id)}
    {w : QuestionMarkName} {ids : List Id} (h : findIds l w = some ids) :
    findIds (l ++ l') w = some ids := by
  induction l with
  | nil => simp [findIds] at h
  | cons e rest ih =>
    obtain ⟨w2, k2, ids2⟩ := e
    by_cases hw : w = w2
    · simp [findIds, hw] at h ⊢; exact h
    · simp [findIds, hw] at h ⊢; exact ih h

theorem findIds_append_of_none {l : List (QuestionMarkName × WildcardKind × List Id)}
    {w : QuestionMarkName} (h : findIds l w = none)
    (k : WildcardKind) (ids : List Id) :
    findIds (l ++ [(w, k, ids)]) w = some ids := by
  induction l with
  | nil => simp [findIds]
  | cons e rest ih =>
    obtain ⟨w2, k2, ids2⟩ := e
    by_cases hw : w = w2
    · simp [findIds, hw] at h
    · simp [findIds, hw] at h ⊢; exact ih h

theorem findIds_append_other {l : List (QuestionMarkName × WildcardKind × List Id)}
    {w w' : QuestionMarkName} (hne : w ≠ w')
    (k : WildcardKind) (ids : List Id) :
    findIds (l ++ [(w', k, ids)]) w = findIds l w := by
  induction l with
  | nil => simp [findIds, hne]
  | cons e rest ih =>
    obtain ⟨w2, k2, ids2⟩ := e
    by_cases hw : w = w2
    · simp [findIds, hw]
    · simp [findIds, hw]; exact ih

theorem getIds_some_some_mem {l : List (QuestionMarkName × WildcardKind × List Id)}
    {w : QuestionMarkName} {k : WildcardKind} {ids : List Id}
    (h : getIds l w k = some (some ids)) : (w, k, ids) ∈ l := by
  induction l with
  | nil => simp [getIds] at h
  | cons e rest ih =>
    obtain ⟨w2, k2, ids2⟩ := e
    by_cases hw : w = w2
    · by_cases hk : k = k2
      · simp [getIds, hw, hk] at h
        subst hw hk h
        exact List.mem_cons_self _ _
      · simp [getIds, hw, hk] at h
    · simp [getIds, hw] at h
      exact List.mem_cons_of_mem _ (ih h)

theorem getIds_some_some_find {l : List (QuestionMarkName × WildcardKind × List Id)}
    {w : QuestionMarkName} {k : WildcardKind} {ids : List Id}
    (h : getIds l w k = some (some ids)) : findIds l w = some ids := by
  induction l with
  | nil => simp [getIds] at h
  | cons e rest ih =>
    obtain ⟨w2, k2, ids2⟩ := e
    by_cases hw : w = w2
    · by_cases hk : k = k2
      · simp [getIds, hw, hk] at h
        simp [findIds, hw, h]
      · simp [getIds, hw, hk] at h
    · simp [getIds, hw] at h
      simp [findIds, hw]
      exact ih h

theorem getIds_some_none_notmem {l : List (QuestionMarkName × WildcardKind × List Id)}
    {w : QuestionMarkName} {k : WildcardKind}
    (h : getIds l w k = some none) : ∀ e ∈ l, e.1 ≠ w := by
  induction l with
  | nil => simp
  | cons e rest ih =>
    obtain ⟨w2, k2, ids2⟩ := e
    by_cases hw : w = w2
    · by_cases hk : k = k2
      · simp [getIds, hw, hk] at h
      · simp [getIds, hw, hk] at h
    · simp [getIds, hw] at h
      intro e he
      rcases List.mem_cons.mp he with he | he
      · subst he
        intro hc
        exact hw hc.symm
      · exact ih h e he

theorem getIds_some_none_find {l : List (QuestionMarkName × WildcardKind × List Id)}
    {w : QuestionMarkName} {k : WildcardKind}
    (h : getIds l w k = some none) : findIds l w = none := by
  induction l with
  | nil => simp [findIds]
  | cons e rest ih =>
    obtain ⟨w2, k2, ids2⟩ := e
    by_cases hw : w = w2
    · by_cases hk : k = k2
      · simp [getIds, hw, hk] at h
      · simp [getIds, hw, hk] at h
    · simp [getIds, hw] at h
      simp [findIds, hw]
      exact ih h

theorem findIds_some_mem {l : List (QuestionMarkName × WildcardKind × List Id)}
    {w : QuestionMarkName} {ids : List Id}
    (h : findIds l w = some ids) : ∃ k, (w, k, ids) ∈ l := by
  induction l with
  | nil => simp [findIds] at h
  | cons e rest ih =>
    obtain ⟨w2, k2, ids2⟩ := e
    by_cases hw : w = w2
    · simp [findIds, hw] at h
      exact ⟨k2, by simp [hw, h]⟩
    · simp [findIds, hw] at h
      obtain ⟨k, hk⟩ := ih h
      exact ⟨k, List.mem_cons_of_mem _ hk⟩

theorem findIds_of_mem_nodup {l : List (QuestionMarkName × WildcardKind × List Id)}
    {w : QuestionMarkName} {k : WildcardKind} {ids : List Id}
    (hu : (l.map fun e => e.1).Nodup) (hm : (w, k, ids) ∈ l) :
    findIds l w = some ids := by
  induction l with
  | nil => simp at hm
  | cons e rest ih =>
    obtain ⟨w2, k2, ids2⟩ := e
    rw [List.map_cons, List.nodup_cons] at hu
    rcases List.mem_cons.mp hm with heq | hmem
    · simp only [Prod.mk.injEq] at heq
      obtain ⟨rfl, rfl, rfl⟩ := heq
      simp [findIds]
    · have hne : w ≠ w2 := fun hc =>
        hu.1 (hc ▸ List.mem_map.mpr ⟨(w, k, ids), hmem, rfl⟩)
      simp [findIds, hne]
      exact ih hu.2 hmem

/-! ### Lemmas about the left-to-right merge -/

theorem mergeEntries_find_mono {l : List (QuestionMarkName × WildcardKind × List Id)} :
    ∀ {c t : WildMap}, mergeEntries c l = some (some t) →
    ∀ w ids, c.find w = some ids → t.find w = some ids := by
  induction l with
  | nil =>
    intro c t h w ids hf
    simp [mergeEntries] at h
    exact h ▸ hf
  | cons e rest ih =>
    intro c t h w ids hf
    obtain ⟨w', k', ids'⟩ := e
    cases hg : c.get w' k' with
    | none => simp [mergeEntries, WildMap.insert, hg] at h
    | some o =>
      cases o with
      | none =>
        simp only [mergeEntries, WildMap.insert, hg] at h
        exact ih h w ids (findIds_append_of_some hf)
      | some old =>
        by_cases ho : old = ids'
        · simp only [mergeEntries, WildMap.insert, hg, if_pos ho] at h
          exact ih h w ids hf
        · simp [mergeEntries, WildMap.insert, hg, if_neg ho] at h

theorem mergeEntries_covers {l : List (QuestionMarkName × WildcardKind × List Id)} :
    ∀ {c t : WildMap}, mergeEntries c l = some (some t) →
    ∀ w k ids, (w, k, ids) ∈ l → t.find w = some ids := by
  induction l with
  | nil =>
    intro c t h w k ids hm
    simp at hm
  | cons e rest ih =>
    intro c t h w k ids hm
    obtain ⟨w', k', ids'⟩ := e
    rcases List.mem_cons.mp hm with heq | hmem
    · simp only [Prod.mk.injEq] at heq
      obtain ⟨rfl, rfl, rfl⟩ := heq
      cases hg : c.get w k with
      | none => simp [mergeEntries, WildMap.insert, hg] at h
      | some o =>
        cases o with
        | none =>
          simp only [mergeEntries, WildMap.insert, hg] at h
          exact mergeEntries_find_mono h w ids
            (findIds_append_of_none (getIds_some_none_find hg) k ids)
        | some old =>
          by_cases ho : old = ids
          · simp only [mergeEntries, WildMap.insert, hg, if_pos ho] at h
            subst ho
            exact mergeEntries_find_mono h w old (getIds_some_some_find hg)
          · simp [mergeEntries, WildMap.insert, hg, if_neg ho] at h
    · cases hg : c.get w' k' with
      | none => simp [mergeEntries, WildMap.insert, hg] at h
      | some o =>
        cases o with
        | none =>
          simp only [mergeEntries, WildMap.insert, hg] at h
          exact ih h w k ids hmem
        | some old =>
          by_cases ho : old = ids'
          · simp only [mergeEntries, WildMap.insert, hg, if_pos ho] at h
            exact ih h w k ids hmem
          · simp [mergeEntries, WildMap.insert, hg, if_neg ho] at h

theorem mergeEntries_mem {l : List (QuestionMarkName × WildcardKind × List Id)} :
    ∀ {c t : WildMap}, mergeEntries c l = some (some t) →
    ∀ e ∈ t.vec, e ∈ c.vec ∨ e ∈ l := by
  induction l with
  | nil =>
    intro c t h e he
    simp [mergeEntries] at h
    exact Or.inl (h ▸ he)
  | cons hd rest ih =>
    intro c t h e he
    obtain ⟨w', k', ids'⟩ := hd
    cases hg : c.get w' k' with
    | none => simp [mergeEntries, WildMap.insert, hg] at h
    | some o =>
      cases o with
      | none =>
        simp only [mergeEntries, WildMap.insert, hg] at h
        rcases ih h e he with hc | hr
        · rcases List.mem_append.mp hc with hc | hc
          · exact Or.inl hc
          · simp at hc
            exact Or.inr (List.mem_cons.mpr (Or.inl hc))
        · exact Or.inr (List.mem_cons.mpr (Or.inr hr))
      | some old =>
        by_cases ho : old = ids'
        · simp only [mergeEntries, WildMap.insert, hg, if_pos ho] at h
          rcases ih h e he with hc | hr
          · exact Or.inl hc
          · exact Or.inr (List.mem_cons.mpr (Or.inr hr))
        · simp [mergeEntries, WildMap.insert, hg, if_neg ho] at h

theorem mergeEntries_nodup {l : List (QuestionMarkName × WildcardKind × List Id)} :
    ∀ {c t : WildMap}, mergeEntries c l = some (some t) →
    uniqNames c → uniqNames t := by
  induction l with
  | nil =>
    intro c t h hu
    simp [mergeEntries] at h
    exact h ▸ hu
  | cons hd rest ih =>
    intro c t h hu
    obtain ⟨w', k', ids'⟩ := hd
    cases hg : c.get w' k' with
    | none => simp [mergeEntries, WildMap.insert, hg] at h
    | some o =>
      cases o with
      | none =>
        simp only [mergeEntries, WildMap.insert, hg] at h
        refine ih h ?_
        unfold uniqNames at hu ⊢
        simp only [List.map_append, List.map_cons, List.map_nil]
        rw [List.nodup_append]
        refine ⟨hu, List.nodup_singleton _, ?_⟩
        intro a ha hb
        simp at hb
        subst hb
        obtain ⟨e, he, hee⟩ := List.mem_map.mp ha
        exact getIds_some_none_notmem hg e he hee
      | some old =>
        by_cases ho : old = ids'
        · simp only [mergeEntries, WildMap.insert, hg, if_pos ho] at h
          exact ih h hu
        · simp [mergeEntries, WildMap.insert, hg, if_neg ho] at h

theorem mergeMaps_find_mono {ms : List WildMap} :
    ∀ {c t : WildMap}, mergeMaps c ms = some (some t) →
    ∀ w ids, c.find w = some ids → t.find w = some ids := by
  induction ms with
  | nil =>
    intro c t h w ids hf
    simp [mergeMaps] at h
    exact h ▸ hf
  | cons m rest ih =>
    intro c t h w ids hf
    cases hme : mergeEntries c m.vec with
    | none => simp [mergeMaps, hme] at h
    | some o =>
      cases o with
      | none => simp [mergeMaps, hme] at h
      | some c1 =>
        simp only [mergeMaps, hme] at h
        exact ih h w ids (mergeEntries_find_mono hme w ids hf)

theorem mergeMaps_covers {ms : List WildMap} :
    ∀ {c t : WildMap}, mergeMaps c ms = some (some t) →
    ∀ m ∈ ms, ∀ w k ids, (w, k, ids) ∈ m.vec → t.find w = some ids := by
  induction ms with
  | nil =>
    intro c t h m hm
    simp at hm
  | cons m0 rest ih =>
    intro c t h m hm w k ids hmem
    cases hme : mergeEntries c m0.vec with
    | none => simp [mergeMaps, hme] at h
    | some o =>
      cases o with
      | none => simp [mergeMaps, hme] at h
      | some c1 =>
        simp only [mergeMaps, hme] at h
        rcases List.mem_cons.mp hm with heq | hmm
        · subst heq
          exact mergeMaps_find_mono h w ids (mergeEntries_covers hme w k ids hmem)
        · exact ih h m hmm w k ids hmem

theorem mergeMaps_mem {ms : List WildMap} :
    ∀ {c t : WildMap}, mergeMaps c ms = some (some t) →
    ∀ e ∈ t.vec, e ∈ c.vec ∨ ∃ m ∈ ms, e ∈ m.vec := by
  induction ms with
  | nil =>
    intro c t h e he
    simp [mergeMaps] at h
    exact Or.inl (h ▸ he)
  | cons m0 rest ih =>
    intro c t h e he
    cases hme : mergeEntries c m0.vec with
    | none => simp [mergeMaps, hme] at h
    | some o =>
      cases o with
      | none => simp [mergeMaps, hme] at h
      | some c1 =>
        simp only [mergeMaps, hme] at h
        rcases ih h e he with hc | ⟨m, hm, hmem⟩
        · rcases mergeEntries_mem hme e hc with hc | hc
          · exact Or.inl hc
          · exact Or.inr ⟨m0, List.mem_cons_self _ _, hc⟩
        · exact Or.inr ⟨m, List.mem_cons.mpr (Or.inr hm), hmem⟩

theorem mergeMaps_nodup {ms : List WildMap} :
    ∀ {c t : WildMap}, mergeMaps c ms = some (some t) →
    uniqNames c → uniqNames t := by
  induction ms with
  | nil =>
    intro c t h hu
    simp [mergeMaps] at h
    exact h ▸ hu
  | cons m0 rest ih =>
    intro c t h hu
    cases hme : mergeEntries c m0.vec with
    | none => simp [mergeMaps, hme] at h
    | some o =>
      cases o with
      | none => simp [mergeMaps, hme] at h
      | some c1 =>
        simp only [mergeMaps, hme] at h
        exact ih h (mergeEntries_nodup hme hu)

/-! ### Lemmas about the cartesian-product combination -/

theorem processTuples_provenance {tl : List (List WildMap)} :
    ∀ {out : List WildMap}, processTuples tl = some out →
    ∀ t ∈ out, ∃ ms ∈ tl, ∃ m0 mrest,
      ms = m0 :: mrest ∧ mergeMaps m0 mrest = some (some t) := by
  induction tl with
  | nil =>
    intro out h t ht
    simp [processTuples] at h
    subst h
    simp at ht
  | cons ms rest ih =>
    intro out h t ht
    cases ms with
    | nil => simp [processTuples] at h
    | cons m0 mrest =>
      cases hmm : mergeMaps m0 mrest with
      | none => simp [processTuples, hmm] at h
      | some o =>
        cases o with
        | none =>
          simp only [processTuples, hmm] at h
          obtain ⟨ms', hms', hrest⟩ := ih h t ht
          exact ⟨ms', List.mem_cons.mpr (Or.inr hms'), hrest⟩
        | some t0 =>
          cases hr : processTuples rest with
          | none => simp [processTuples, hmm, hr] at h
          | some ts =>
            simp only [processTuples, hmm, hr] at h
            rw [Option.some_inj] at h
            subst h
            rcases List.mem_cons.mp ht with heq | hmem
            · subst heq
              exact ⟨m0 :: mrest, List.mem_cons_self _ _, m0, mrest, rfl, hmm⟩
            · obtain ⟨ms', hms', hrest⟩ := ih hr t hmem
              exact ⟨ms', List.mem_cons.mpr (Or.inr hms'), hrest⟩

theorem cartesian_mem {α : Type} {ls : List (List α)} :
    ∀ {ms : List α}, ms ∈ cartesian ls →
    List.Forall₂ (fun x l => x ∈ l) ms ls := by
  induction ls with
  | nil =>
    intro ms h
    simp [cartesian] at h
    subst h
    exact List.Forall₂.nil
  | cons l ls ih =>
    intro ms h
    simp only [cartesian, List.mem_flatMap, List.mem_map] at h
    obtain ⟨x, hx, ms', hms', rfl⟩ := h
    exact List.Forall₂.cons hx (ih hms')

theorem forall₂_join {α β γ : Type} {A : α → β → Prop} {B : γ → β → Prop} :
    ∀ {zs : List α} {bs : List β} {ms : List γ},
      List.Forall₂ A zs bs → List.Forall₂ B ms bs →
      List.Forall₂ (fun z m => ∃ b, A z b ∧ B m b) zs ms := by
  intro zs bs ms ha
  induction ha generalizing ms with
  | nil =>
    intro hb
    cases hb
    exact List.Forall₂.nil
  | cons hab _ ih =>
    intro hb
    cases hb with
    | cons hcb htb => exact List.Forall₂.cons ⟨_, hab, hcb⟩ (ih htb)

theorem forall₂_mem_left {α β : Type} {R : α → β → Prop} :
    ∀ {l : List α} {m : List β}, List.Forall₂ R l m →
    ∀ a ∈ l, ∃ b ∈ m, R a b := by
  intro l m h
  induction h with
  | nil => simp
  | cons hab _ ih =>
    intro a ha
    rcases List.mem_cons.mp ha with heq | hmem
    · subst heq
      exact ⟨_, List.mem_cons_self _ _, hab⟩
    · obtain ⟨b, hb, hr⟩ := ih a hmem
      exact ⟨b, List.mem_cons.mpr (Or.inr hb), hr⟩

theorem mem_zip_of_mem_left {α β : Type} :
    ∀ {l : List α} {l' : List β} {a : α}, a ∈ l → l.length = l'.length →
    ∃ b, (a, b) ∈ l.zip l' := by
  intro l
  induction l with
  | nil => intro l' a ha; simp at ha
  | cons x xs ih =>
    intro l' a ha hl
    cases l' with
    | nil => simp at hl
    | cons y ys =>
      rcases List.mem_cons.mp ha with heq | hmem
      · subst heq
        exact ⟨y, by simp⟩
      · obtain ⟨b, hb⟩ := ih hmem (by simpa using hl)
        exact ⟨b, List.mem_cons.mpr (Or.inr hb)⟩

theorem forall₂_append_singleton {α β : Type} {R : α → β → Prop} :
    ∀ {ms : List α} {ls : List β} {l : β},
      List.Forall₂ R ms (ls ++ [l]) →
      ∃ ms' mt, ms = ms' ++ [mt] ∧ List.Forall₂ R ms' ls ∧ R mt l := by
  intro ms ls
  induction ls generalizing ms with
  | nil =>
    intro l h
    cases h with
    | cons hab htl =>
      cases htl
      exact ⟨[], _, rfl, List.Forall₂.nil, hab⟩
  | cons x xs ih =>
    intro l h
    cases h with
    | cons hab htl =>
      obtain ⟨ms', mt, rfl, hf, hr⟩ := ih htl
      exact ⟨_ :: ms', mt, rfl, List.Forall₂.cons hab hf, hr⟩

/-! ### Unfolding lemmas for the matcher -/

theorem search_pat_list_spec {L : Type} [DecidableEq L] {g : EGraph L}
    {ps : List (Pattern L)} :
    ∀ {ids : List Id} {tss : List (List WildMap)},
    search_pat_list ps g ids = some tss →
    List.Forall₂ (fun (pc : Pattern L × Id) ts => search_pat pc.1 g pc.2 = some ts)
      (ps.zip ids) tss := by
  induction ps with
  | nil =>
    intro ids tss h
    simp only [search_pat_list] at h
    rw [Option.some_inj] at h
    subst h
    simp
  | cons p ps ih =>
    intro ids tss h
    cases ids with
    | nil =>
      simp only [search_pat_list] at h
      rw [Option.some_inj] at h
      subst h
      simp
    | cons c cs =>
      simp only [search_pat_list] at h
      cases hsp : search_pat p g c with
      | none => rw [hsp] at h; exact absurd h (by simp)
      | some ts =>
        rw [hsp] at h
        cases hrest : search_pat_list ps g cs with
        | none => rw [hrest] at h; exact absurd h (by simp)
        | some tss' =>
          rw [hrest] at h
          simp only [Option.some_inj] at h
          subst h
          exact List.Forall₂.cons hsp (ih hrest)

theorem search_enodes_append {L : Type} [DecidableEq L] {op : L}
    {cs : List (Pattern L)} {g : EGraph L} {es1 es2 : List (ENode L Id)} :
    ∀ {out : List WildMap},
    search_enodes op cs g (es1 ++ es2) = some out →
    ∃ o1 o2, search_enodes op cs g es1 = some o1 ∧
      search_enodes op cs g es2 = some o2 ∧ out = o1 ++ o2 := by
  induction es1 with
  | nil =>
    intro out h
    refine ⟨[], out, ?_, by simpa using h, by simp⟩
    simp only [search_enodes]
  | cons e es ih =>
    intro out h
    simp only [List.cons_append, search_enodes] at h ⊢
    cases h1 : search_enode_one op cs g e with
    | none => rw [h1] at h; exact absurd h (by simp)
    | some ts =>
      rw [h1] at h
      cases h2 : search_enodes op cs g (es ++ es2) with
      | none => rw [h2] at h; exact absurd h (by simp)
      | some more =>
        rw [h2] at h
        simp only [Option.some_inj] at h
        subst h
        obtain ⟨o1, o2, ho1, ho2, rfl⟩ := ih h2
        rw [ho1]
        exact ⟨ts ++ o1, o2, rfl, ho2, by simp⟩

theorem findLeaf_of_exists {L : Type} [DecidableEq L] {op : L}
    {ns : List (ENode L Id)} (h : ∃ e ∈ ns, e.children = [] ∧ e.op = op) :
    findLeaf op ns = [⟨[]⟩] := by
  induction ns with
  | nil => simp at h
  | cons e rest ih =>
    obtain ⟨e', he', hc, ho⟩ := h
    rcases List.mem_cons.mp he' with heq | hmem
    · subst heq
      simp [findLeaf, hc, ho]
    · by_cases hhd : e.children = [] ∧ e.op = op
      · simp [findLeaf, hhd]
      · simp only [findLeaf, if_neg hhd]
        exact ih ⟨e', hmem, hc, ho⟩

theorem findLeaf_of_forall {L : Type} [DecidableEq L] {op : L}
    {ns : List (ENode L Id)} (h : ∀ e ∈ ns, ¬(e.children = [] ∧ e.op = op)) :
    findLeaf op ns = [] := by
  induction ns with
  | nil => simp [findLeaf]
  | cons e rest ih =>
    simp only [findLeaf, if_neg (h e (List.mem_cons_self _ _))]
    exact ih fun e' he' => h e' (List.mem_cons.mpr (Or.inr he'))

theorem findLeaf_length {L : Type} [DecidableEq L] (op : L)
    (ns : List (ENode L Id)) : (findLeaf op ns).length ≤ 1 := by
  induction ns with
  | nil => simp [findLeaf]
  | cons e rest ih =>
    by_cases hhd : e.children = [] ∧ e.op = op
    · simp [findLeaf, hhd]
    · simp only [findLeaf, if_neg hhd]
      exact ih

theorem findMulti_of_tail {L : Type} {l1 : List (Pattern L)}
    (l2 : List (Pattern L)) (q : QuestionMarkName)
    (h : ∀ p ∈ l1, p.is_multi_wildcard = false) :
    ∀ i, findMulti (l1 ++ .Wildcard q .ZeroOrMore :: l2) i =
      some (i + l1.length, q) := by
  induction l1 with
  | nil => intro i; simp [findMulti]
  | cons p l1 ih =>
    intro i
    have hp : p.is_multi_wildcard = false := h p (List.mem_cons_self _ _)
    have hrest : ∀ p ∈ l1, p.is_multi_wildcard = false :=
      fun p hm => h p (List.mem_cons.mpr (Or.inr hm))
    have step : findMulti ((p :: l1) ++ .Wildcard q .ZeroOrMore :: l2) i =
        findMulti (l1 ++ .Wildcard q .ZeroOrMore :: l2) (i + 1) := by
      cases p with
      | ENode op cs => simp [findMulti]
      | Wildcard w k =>
        cases k with
        | Single => simp [findMulti]
        | ZeroOrMore => simp [Pattern.is_multi_wildcard] at hp
    rw [step, ih hrest (i + 1)]
    simp
    omega

theorem findMulti_decomp {L : Type} :
    ∀ {cs : List (Pattern L)} {i pos : Nat} {q : QuestionMarkName},
    findMulti cs i = some (pos, q) →
    ∃ l1 l2, cs = l1 ++ .Wildcard q .ZeroOrMore :: l2 ∧ pos = i + l1.length ∧
      ∀ p ∈ l1, p.is_multi_wildcard = false := by
  intro cs
  induction cs with
  | nil => intro i pos q h; simp [findMulti] at h
  | cons p rest ih =>
    intro i pos q h
    cases p with
    | Wildcard w k =>
      cases k with
      | ZeroOrMore =>
        simp only [findMulti, Option.some_inj, Prod.mk.injEq] at h
        obtain ⟨rfl, rfl⟩ := h
        exact ⟨[], rest, rfl, by simp, by simp⟩
      | Single =>
        simp only [findMulti] at h
        obtain ⟨l1, l2, rfl, hpos, hl1⟩ := ih h
        refine ⟨.Wildcard w .Single :: l1, l2, rfl, by simp; omega, ?_⟩
        intro p hp
        rcases List.mem_cons.mp hp with heq | hmem
        · subst heq; simp [Pattern.is_multi_wildcard]
        · exact hl1 p hmem
    | ENode op cs' =>
      simp only [findMulti] at h
      obtain ⟨l1, l2, rfl, hpos, hl1⟩ := ih h
      refine ⟨.ENode op cs' :: l1, l2, rfl, by simp; omega, ?_⟩
      intro p hp
      rcases List.mem_cons.mp hp with heq | hmem
      · subst heq; simp [Pattern.is_multi_wildcard]
      · exact hl1 p hmem

theorem wildcardsList_append {L : Type} (l1 l2 : List (Pattern L)) :
    wildcardsList (l1 ++ l2) = wildcardsList l1 ++ wildcardsList l2 := by
  induction l1 with
  | nil => simp [wildcardsList]
  | cons p rest ih => simp only [List.cons_append, wildcardsList, ih, List.append_assoc]

theorem mem_wildcardsList {L : Type} {cs : List (Pattern L)}
    {e : QuestionMarkName × WildcardKind} :
    e ∈ wildcardsList cs ↔ ∃ p ∈ cs, e ∈ wildcards p := by
  induction cs with
  | nil => simp [wildcardsList]
  | cons p rest ih =>
    simp only [wildcardsList, List.mem_append, ih]
    constructor
    · rintro (h | ⟨p', hp', he⟩)
      · exact ⟨p, List.mem_cons_self _ _, h⟩
      · exact ⟨p', List.mem_cons.mpr (Or.inr hp'), he⟩
    · rintro ⟨p', hp', he⟩
      rcases List.mem_cons.mp hp' with heq | hmem
      · subst heq; exact Or.inl he
      · exact Or.inr ⟨p', hmem, he⟩

theorem forall₂_mem_right {α β : Type} {R : α → β → Prop} :
    ∀ {l : List α} {m : List β}, List.Forall₂ R l m →
    ∀ b ∈ m, ∃ a ∈ l, R a b := by
  intro l m h
  induction h with
  | nil => simp
  | cons hab _ ih =>
    intro b hb
    rcases List.mem_cons.mp hb with heq | hmem
    · subst heq
      exact ⟨_, List.mem_cons_self _ _, hab⟩
    · obtain ⟨a, ha, hr⟩ := ih b hmem
      exact ⟨a, List.mem_cons.mpr (Or.inr ha), hr⟩

theorem mem_findLeaf {L : Type} [DecidableEq L] {op : L}
    {ns : List (ENode L Id)} {t : WildMap} (ht : t ∈ findLeaf op ns) :
    t = ⟨[]⟩ := by
  induction ns with
  | nil => simp [findLeaf] at ht
  | cons e rest ih =>
    by_cases hhd : e.children = [] ∧ e.op = op
    · simp [findLeaf, hhd] at ht
      simp [ht]
    · simp only [findLeaf, if_neg hhd] at ht
      exact ih ht

theorem search_pat_wildcard_single {L : Type} [DecidableEq L]
    (w : QuestionMarkName) (g : EGraph L) (c : Id) :
    search_pat (.Wildcard w .Single) g c =
      some [⟨[(w, WildcardKind.Single, [c])]⟩] := by
  simp [search_pat, WildMap.insert, WildMap.get, getIds]

theorem search_pat_wildcard_multi {L : Type} [DecidableEq L]
    (w : QuestionMarkName) (g : EGraph L) (c : Id) :
    search_pat (.Wildcard w .ZeroOrMore) g c = none := by
  simp [search_pat]

/-! ### The binding-table invariant of the matcher -/

theorem patVars_Wildcard {L : Type} (w : QuestionMarkName) (k : WildcardKind) :
    patVars (L := L) (.Wildcard w k) = [w] := by
  simp [patVars, wildcards]

theorem patVars_ENode {L : Type} (op : L) (cs : List (Pattern L)) :
    patVars (.ENode op cs) = (wildcardsList cs).map fun e => e.1 := by
  simp [patVars, wildcards]

theorem combineAll_spec {argm : List (List WildMap)} {out : List WildMap}
    (h : combineAll argm = some out) :
    ∀ t ∈ out, ∃ m0 mrest,
      List.Forall₂ (fun (m : WildMap) l => m ∈ l) (m0 :: mrest) argm ∧
      (∀ m ∈ m0 :: mrest, ∀ w ids, m.find w = some ids → t.find w = some ids) ∧
      (∀ e ∈ t.vec, ∃ m ∈ m0 :: mrest, e ∈ m.vec) ∧
      (uniqNames m0 → uniqNames t) := by
  intro t ht
  obtain ⟨ms, hms, m0, mrest, rfl, hmm⟩ := processTuples_provenance h t ht
  refine ⟨m0, mrest, cartesian_mem hms, ?_, ?_, fun hu => mergeMaps_nodup hmm hu⟩
  · intro m hm w ids hf
    rcases List.mem_cons.mp hm with heq | hmem
    · subst heq
      exact mergeMaps_find_mono hmm w ids hf
    · obtain ⟨k, hk⟩ := findIds_some_mem hf
      exact mergeMaps_covers hmm m hmem w k ids hk
  · intro e he
    rcases mergeMaps_mem hmm e he with hc | ⟨m, hm, hmem⟩
    · exact ⟨m0, List.mem_cons_self _ _, hc⟩
    · exact ⟨m, List.mem_cons.mpr (Or.inr hm), hmem⟩

theorem combine_good_nomulti {L : Type} [DecidableEq L] {op : L}
    {g : EGraph L} {cs : List (Pattern L)} {ids : List Id}
    {argm : List (List WildMap)}
    (hlen : cs.length = ids.length)
    (hspl : search_pat_list cs g ids = some argm)
    (IH : ∀ p ∈ cs, ∀ c ts, search_pat p g c = some ts → ∀ t ∈ ts, GoodTable p t)
    {out : List WildMap} (h : combineAll argm = some out) :
    ∀ t ∈ out, GoodTable (Pattern.ENode op cs) t := by
  intro t ht
  obtain ⟨m0, mrest, hfa, htrans, hmem, huniq⟩ := combineAll_spec h t ht
  have hzip := search_pat_list_spec hspl
  have hjoin := forall₂_join hzip hfa
  have hGoodms : ∀ m ∈ m0 :: mrest, ∃ p ∈ cs, GoodTable p m := by
    intro m hm
    obtain ⟨pc, hpc, l, hsl, hml⟩ := forall₂_mem_right hjoin m hm
    obtain ⟨p, c⟩ := pc
    have hp1 : p ∈ cs := (List.of_mem_zip hpc).1
    exact ⟨p, hp1, IH p hp1 c l hsl m hml⟩
  refine ⟨?_, ?_, ?_⟩
  · rw [patVars_ENode]
    intro w hw
    obtain ⟨en, hen, rfl⟩ := List.mem_map.mp hw
    obtain ⟨p, hp, hwp⟩ := mem_wildcardsList.mp hen
    obtain ⟨c, hc⟩ := mem_zip_of_mem_left hp hlen
    obtain ⟨m, hm, l, hsl, hml⟩ := forall₂_mem_left hjoin (p, c) hc
    have hg := IH p hp c l hsl m hml
    have hne : m.find en.1 ≠ none :=
      hg.1 en.1 (List.mem_map.mpr ⟨en, hwp, rfl⟩)
    obtain ⟨ids', hids'⟩ := Option.ne_none_iff_exists'.mp hne
    rw [htrans m hm en.1 ids' hids']
    simp
  · intro entry hentry hkind
    obtain ⟨m, hm, hment⟩ := hmem entry hentry
    obtain ⟨p, hp, hg⟩ := hGoodms m hm
    exact hg.2.1 entry hment hkind
  · obtain ⟨p, hp, hg⟩ := hGoodms m0 (List.mem_cons_self _ _)
    exact huniq hg.2.2

theorem combine_good_multi {L : Type} [DecidableEq L] {op : L}
    {g : EGraph L} {l1 : List (Pattern L)} {q : QuestionMarkName}
    {ids : List Id} {argm : List (List WildMap)} {suffix : List Id}
    (hlen : l1.length = ids.length)
    (hspl : search_pat_list (l1 ++ [Pattern.Wildcard q WildcardKind.ZeroOrMore])
      g ids = some argm)
    (IH : ∀ p ∈ l1 ++ [Pattern.Wildcard q WildcardKind.ZeroOrMore],
      ∀ c ts, search_pat p g c = some ts → ∀ t ∈ ts, GoodTable p t)
    {out : List WildMap}
    (h : combineAll (argm ++ [[⟨[(q, WildcardKind.ZeroOrMore, suffix)]⟩]]) =
      some out) :
    ∀ t ∈ out,
      GoodTable (Pattern.ENode op (l1 ++ [Pattern.Wildcard q WildcardKind.ZeroOrMore])) t := by
  intro t ht
  obtain ⟨m0, mrest, hfa, htrans, hmem, huniq⟩ := combineAll_spec h t ht
  obtain ⟨ms', mt, heq, hf', hmt⟩ := forall₂_append_singleton hfa
  have hmt' : mt = ⟨[(q, WildcardKind.ZeroOrMore, suffix)]⟩ := by
    simpa using hmt
  subst hmt'
  have hzip := search_pat_list_spec hspl
  have hzip' : List.Forall₂
      (fun (pc : Pattern L × Id) ts => search_pat pc.1 g pc.2 = some ts)
      (l1.zip ids) argm := by
    have : (l1 ++ [Pattern.Wildcard q WildcardKind.ZeroOrMore]).zip ids
        = l1.zip ids := by
      conv_lhs => rw [show ids = ids ++ [] by simp]
      rw [List.zip_append hlen]
      simp
    rwa [this] at hzip
  have hjoin := forall₂_join hzip' hf'
  have hGoodms : ∀ m ∈ ms', ∃ p ∈ l1, GoodTable p m := by
    intro m hm
    obtain ⟨pc, hpc, l, hsl, hml⟩ := forall₂_mem_right hjoin m hm
    obtain ⟨p, c⟩ := pc
    have hp1 : p ∈ l1 := (List.of_mem_zip hpc).1
    exact ⟨p, hp1, IH p (List.mem_append.mpr (Or.inl hp1)) c l hsl m hml⟩
  have hmemms : ∀ m ∈ ms', m ∈ m0 :: mrest := by
    intro m hm
    rw [heq]
    exact List.mem_append.mpr (Or.inl hm)
  have htailmem : (⟨[(q, WildcardKind.ZeroOrMore, suffix)]⟩ : WildMap) ∈ m0 :: mrest := by
    rw [heq]
    exact List.mem_append.mpr (Or.inr (List.mem_singleton.mpr rfl))
  refine ⟨?_, ?_, ?_⟩
  · rw [patVars_ENode]
    intro w hw
    obtain ⟨en, hen, rfl⟩ := List.mem_map.mp hw
    rw [wildcardsList_append] at hen
    rcases List.mem_append.mp hen with hen1 | hen2
    · obtain ⟨p, hp, hwp⟩ := mem_wildcardsList.mp hen1
      obtain ⟨c, hc⟩ := mem_zip_of_mem_left hp hlen
      obtain ⟨m, hm, l, hsl, hml⟩ := forall₂_mem_left hjoin (p, c) hc
      have hg := IH p (List.mem_append.mpr (Or.inl hp)) c l hsl m hml
      have hne : m.find en.1 ≠ none :=
        hg.1 en.1 (List.mem_map.mpr ⟨en, hwp, rfl⟩)
      obtain ⟨ids', hids'⟩ := Option.ne_none_iff_exists'.mp hne
      rw [htrans m (hmemms m hm) en.1 ids' hids']
      simp
    · have hq : en = (q, WildcardKind.ZeroOrMore) := by
        simpa [wildcardsList, wildcards] using hen2
      subst hq
      have hfq : WildMap.find ⟨[(q, WildcardKind.ZeroOrMore, suffix)]⟩ q
          = some suffix := by
        simp [WildMap.find, findIds]
      rw [htrans _ htailmem q suffix hfq]
      simp
  · intro entry hentry hkind
    obtain ⟨m, hm, hment⟩ := hmem entry hentry
    rw [heq] at hm
    rcases List.mem_append.mp hm with hm1 | hm2
    · obtain ⟨p, hp, hg⟩ := hGoodms m hm1
      exact hg.2.1 entry hment hkind
    · rw [List.mem_singleton] at hm2
      subst hm2
      simp at hment
      subst hment
      simp at hkind
  · cases ms' with
    | nil =>
      have hm0 : m0 = ⟨[(q, WildcardKind.ZeroOrMore, suffix)]⟩ := by
        simpa using congrArg (fun l => l.head?) heq
      refine huniq ?_
      rw [hm0]
      simp [uniqNames]
    | cons mh ms'' =>
      have hm0 : m0 = mh := by
        simpa using congrArg (fun l => l.head?) heq
      subst hm0
      obtain ⟨p, hp, hg⟩ := hGoodms m0 (List.mem_cons_self _ _)
      exact huniq hg.2.2

theorem search_enode_one_good {L : Type} [DecidableEq L] {op : L}
    {cs : List (Pattern L)} {g : EGraph L} {e : ENode L Id}
    (IH : ∀ p ∈ cs, ∀ c ts, search_pat p g c = some ts → ∀ t ∈ ts, GoodTable p t)
    {ts : List WildMap} (h : search_enode_one op cs g e = some ts) :
    ∀ t ∈ ts, GoodTable (Pattern.ENode op cs) t := by
  by_cases hnm : cs.countP (fun p => p.is_multi_wildcard) > 0
  · by_cases h1 : cs.countP (fun p => p.is_multi_wildcard) = 1
    · cases hfm : findMulti cs 0 with
      | none =>
        simp only [search_enode_one, if_pos hnm, if_pos h1, hfm] at h
        exact absurd h (by simp)
      | some pq =>
        obtain ⟨position, q⟩ := pq
        obtain ⟨la, l2, hcs, hpos0, hla⟩ := findMulti_decomp hfm
        by_cases hpos : position = cs.length - 1
        · by_cases hskip : cs.length - 1 > e.children.length
          · simp only [search_enode_one, if_pos hnm, if_pos h1, hfm,
              if_pos hpos, if_pos hskip] at h
            rw [Option.some_inj] at h
            subst h
            intro t ht
            simp at ht
          · cases hspl : search_pat_list cs g (e.children.take (cs.length - 1)) with
            | none =>
              simp only [search_enode_one, if_pos hnm, if_pos h1, hfm,
                if_pos hpos, if_neg hskip, hspl] at h
              exact absurd h (by simp)
            | some argm =>
              simp only [search_enode_one, if_pos hnm, if_pos h1, hfm,
                if_pos hpos, if_neg hskip, hspl] at h
              have hlen_cs : cs.length = la.length + 1 + l2.length := by
                rw [hcs]
                simp
                omega
              have hl2 : l2 = [] := by
                have : position = la.length := by omega
                have hlen0 : l2.length = 0 := by omega
                exact List.length_eq_zero.mp hlen0
              subst hl2
              have hcs' : cs = la ++ [Pattern.Wildcard q WildcardKind.ZeroOrMore] := hcs
              subst hcs'
              have hlen : la.length =
                  (e.children.take
                    ((la ++ [Pattern.Wildcard q WildcardKind.ZeroOrMore]).length - 1)).length := by
                simp only [List.length_take, List.length_append, List.length_singleton]
                simp only [List.length_append, List.length_singleton] at hskip
                omega
              intro t ht
              exact combine_good_multi hlen hspl IH h t ht
        · simp only [search_enode_one, if_pos hnm, if_pos h1, hfm, if_neg hpos] at h
          exact absurd h (by simp)
    · simp only [search_enode_one, if_pos hnm, if_neg h1] at h
      exact absurd h (by simp)
  · by_cases hlen : cs.length = e.children.length
    · cases hspl : search_pat_list cs g e.children with
      | none =>
        simp only [search_enode_one, if_neg hnm, if_pos hlen, hspl] at h
        exact absurd h (by simp)
      | some argm =>
        simp only [search_enode_one, if_neg hnm, if_pos hlen, hspl] at h
        intro t ht
        exact combine_good_nomulti hlen hspl IH h t ht
    · simp only [search_enode_one, if_neg hnm, if_neg hlen] at h
      rw [Option.some_inj] at h
      subst h
      intro t ht
      simp at ht

theorem search_enodes_good {L : Type} [DecidableEq L] {op : L}
    {cs : List (Pattern L)} {g : EGraph L}
    (IH : ∀ p ∈ cs, ∀ c ts, search_pat p g c = some ts → ∀ t ∈ ts, GoodTable p t) :
    ∀ es ts, search_enodes op cs g es = some ts →
    ∀ t ∈ ts, GoodTable (Pattern.ENode op cs) t := by
  intro es
  induction es with
  | nil =>
    intro ts h t ht
    simp only [search_enodes] at h
    rw [Option.some_inj] at h
    subst h
    simp at ht
  | cons e rest ih =>
    intro ts h t ht
    simp only [search_enodes] at h
    cases h1 : search_enode_one op cs g e with
    | none => rw [h1] at h; exact absurd h (by simp)
    | some ts1 =>
      rw [h1] at h
      cases h2 : search_enodes op cs g rest with
      | none => rw [h2] at h; exact absurd h (by simp)
      | some more =>
        rw [h2] at h
        rw [Option.some_inj] at h
        subst h
        rcases List.mem_append.mp ht with ht1 | ht2
        · exact search_enode_one_good IH h1 t ht1
        · exact ih more h2 t ht2

theorem search_pat_good {L : Type} [DecidableEq L] :
    ∀ (p : Pattern L) (g : EGraph L) (c : Id) (ts : List WildMap),
      search_pat p g c = some ts → ∀ t ∈ ts, GoodTable p t := by
  intro p
  induction p using pattern_induction with
  | hw w kind =>
    intro g c ts h t ht
    cases kind with
    | Single =>
      rw [search_pat_wildcard_single] at h
      rw [Option.some_inj] at h
      subst h
      simp at ht
      subst ht
      refine ⟨?_, ?_, ?_⟩
      · rw [patVars_Wildcard]
        intro w' hw'
        simp at hw'
        subst hw'
        simp [WildMap.find, findIds]
      · intro entry hentry hkind
        simp at hentry
        subst hentry
        simp
      · simp [uniqNames]
    | ZeroOrMore =>
      rw [search_pat_wildcard_multi] at h
      cases h
  | hn op cs ihc =>
    intro g c ts h t ht
    simp only [search_pat] at h
    cases hlc : g.lookupClass c with
    | none => rw [hlc] at h; exact absurd h (by simp)
    | some ns =>
      simp only [hlc] at h
      by_cases hcs : cs.isEmpty = true
      · rw [if_pos hcs] at h
        rw [Option.some_inj] at h
        subst h
        have ht' := mem_findLeaf ht
        subst ht'
        have hcse : cs = [] := List.isEmpty_iff.mp hcs
        subst hcse
        refine ⟨?_, ?_, ?_⟩
        · rw [patVars_ENode]
          simp [wildcardsList]
        · intro entry hentry
          simp at hentry
        · simp [uniqNames]
      · rw [if_neg hcs] at h
        exact search_enodes_good (fun p hp c' => ihc p hp g c') _ ts h t ht

theorem search_eclass_inv {L : Type} [DecidableEq L] {pat : Pattern L}
    {g : EGraph L} {c : Id} {mr : SearchMatches}
    (h : search_eclass pat g c = some (some mr)) :
    search_pat pat g c = some mr.mappings ∧ mr.eclass = c ∧ mr.mappings ≠ [] := by
  cases hsp : search_pat pat g c with
  | none => simp [search_eclass, hsp] at h
  | some ms =>
    simp only [search_eclass, hsp] at h
    by_cases hme : ms.isEmpty = true
    · rw [if_pos hme] at h
      cases h
    · rw [if_neg hme] at h
      simp only [Option.some_inj] at h
      subst h
      refine ⟨?_, ?_, ?_⟩
      · simpa using hsp
      · simp
      · simpa [List.isEmpty_iff] using hme

theorem searchClasses_good {L : Type} [DecidableEq L] {pat : Pattern L}
    {g : EGraph L} :
    ∀ {cls : List (EClass L)} {res : List SearchMatches},
    searchClasses pat g cls = some res →
    ∀ mr ∈ res, ∀ t ∈ mr.mappings, GoodTable pat t := by
  intro cls
  induction cls with
  | nil =>
    intro res h mr hmr
    simp only [searchClasses] at h
    rw [Option.some_inj] at h
    subst h
    simp at hmr
  | cons cl cls ih =>
    intro res h mr hmr
    simp only [searchClasses] at h
    cases hse : search_eclass pat g cl.id with
    | none => rw [hse] at h; cases h
    | some o =>
      rw [hse] at h
      cases o with
      | none => exact ih h mr hmr
      | some m =>
        cases hrest : searchClasses pat g cls with
        | none => rw [hrest] at h; cases h
        | some ms =>
          rw [hrest] at h
          rw [Option.some_inj] at h
          subst h
          rcases List.mem_cons.mp hmr with heq | hmem
          · subst heq
            intro t ht
            obtain ⟨hsp, _, _⟩ := search_eclass_inv hse
            exact search_pat_good pat g cl.id mr.mappings hsp t ht
          · exact ih hrest mr hmem

/-! ### Unfolding helpers for specific pattern shapes -/

theorem search_pat_node {L : Type} [DecidableEq L] (op : L)
    (cs : List (Pattern L)) {g : EGraph L} {c : Id} {ns : List (ENode L Id)}
    (hlc : g.lookupClass c = some ns) (hcs : cs ≠ []) :
    search_pat (.ENode op cs) g c =
      search_enodes op cs g (ns.filter fun e => e.op = op) := by
  simp only [search_pat, hlc]
  rw [if_neg]
  simpa [List.isEmpty_iff] using hcs

theorem search_enodes_single {L : Type} [DecidableEq L] (op : L)
    (cs : List (Pattern L)) (g : EGraph L) (e : ENode L Id) :
    search_enodes op cs g [e] =
      match search_enode_one op cs g e with
      | none => none
      | some ts => some ts := by
  cases h1 : search_enode_one op cs g e with
  | none => simp only [search_enodes, h1]
  | some ts => simp only [search_enodes, h1, List.append_nil]

theorem search_enode_one_pair {L : Type} [DecidableEq L] (op : L)
    (a r : QuestionMarkName) (hne : a ≠ r) (g : EGraph L) (e : ENode L Id) :
    (e.children = [] →
      search_enode_one op [.Wildcard a .Single, .Wildcard r .ZeroOrMore] g e =
        some []) ∧
    (∀ x xs, e.children = x :: xs →
      search_enode_one op [.Wildcard a .Single, .Wildcard r .ZeroOrMore] g e =
        some [⟨[(a, WildcardKind.Single, [x]),
                (r, WildcardKind.ZeroOrMore, xs)]⟩]) := by
  constructor
  · intro hc
    simp [search_enode_one, hc, Pattern.is_multi_wildcard, findMulti]
  · intro x xs hc
    have hra : r ≠ a := Ne.symm hne
    simp [search_enode_one, hc, Pattern.is_multi_wildcard, findMulti,
      search_pat_list, search_pat_wildcard_single, combineAll, cartesian,
      processTuples, mergeMaps, mergeEntries, WildMap.insert, WildMap.get,
      getIds, hra]

theorem countP_multi_tail {L : Type} {l1 : List (Pattern L)}
    (h : ∀ p ∈ l1, p.is_multi_wildcard = false) (q : QuestionMarkName) :
    (l1 ++ [Pattern.Wildcard q WildcardKind.ZeroOrMore]).countP
      (fun (p : Pattern L) => p.is_multi_wildcard) = 1 := by
  rw [List.countP_append]
  have h1 : l1.countP (fun p => p.is_multi_wildcard) = 0 :=
    List.countP_eq_zero.mpr (by simpa using h)
  rw [h1]
  simp [List.countP, List.countP.go, Pattern.is_multi_wildcard]

theorem tail_skip {L : Type} [DecidableEq L] (op : L) (l1 : List (Pattern L))
    (q : QuestionMarkName) (g : EGraph L) (e : ENode L Id)
    (hl1 : ∀ p ∈ l1, p.is_multi_wildcard = false)
    (hlen : e.children.length < l1.length) :
    search_enode_one op (l1 ++ [.Wildcard q .ZeroOrMore]) g e = some [] := by
  have hcount := countP_multi_tail hl1 q
  have hfm := findMulti_of_tail [] q hl1 0
  have hpos : (0 : Nat) + l1.length =
      (l1 ++ [Pattern.Wildcard q WildcardKind.ZeroOrMore]).length - 1 := by
    simp
  have hskip : (l1 ++ [Pattern.Wildcard q WildcardKind.ZeroOrMore]).length - 1 >
      e.children.length := by
    simp
    omega
  simp only [search_enode_one, hcount, hfm]
  rw [if_pos hpos, if_pos hskip]
  norm_num

theorem tail_suffix {L : Type} [DecidableEq L] (op : L) (l1 : List (Pattern L))
    (q : QuestionMarkName) (g : EGraph L) (e : ENode L Id) (ts : List WildMap)
    (hl1 : ∀ p ∈ l1, p.is_multi_wildcard = false)
    (hlen : l1.length ≤ e.children.length)
    (h : search_enode_one op (l1 ++ [.Wildcard q .ZeroOrMore]) g e = some ts) :
    ∀ t ∈ ts, t.find q = some (e.children.drop l1.length) := by
  have hcount := countP_multi_tail hl1 q
  have hfm := findMulti_of_tail [] q hl1 0
  have hlen1 : (l1 ++ [Pattern.Wildcard q WildcardKind.ZeroOrMore]).length - 1 =
      l1.length := by simp
  simp only [search_enode_one, hcount, hfm] at h
  split at h
  case isFalse hc => exact absurd (by norm_num) hc
  split at h
  case isFalse hc => exact absurd trivial hc
  split at h
  case isFalse hc => exact absurd (by simp) hc
  case isTrue hc =>
  split at h
  case isTrue hc2 =>
    rw [hlen1] at hc2
    omega
  case isFalse hc2 =>
  split at h
  case h_1 heq => cases h
  case h_2 argm heq =>
    intro t ht
    obtain ⟨m0, mrest, hfa, htrans, hmem, huniq⟩ := combineAll_spec h t ht
    obtain ⟨ms', mt, heq2, hf', hmt⟩ := forall₂_append_singleton hfa
    have hmt' : mt = ⟨[(q, WildcardKind.ZeroOrMore,
        e.children.drop ((l1 ++ [Pattern.Wildcard q WildcardKind.ZeroOrMore]).length - 1))]⟩ := by
      simpa using hmt
    have htailmem : mt ∈ m0 :: mrest := by
      rw [heq2]
      exact List.mem_append.mpr (Or.inr (List.mem_singleton.mpr rfl))
    have hfq : mt.find q =
        some (e.children.drop ((l1 ++ [Pattern.Wildcard q WildcardKind.ZeroOrMore]).length - 1)) := by
      rw [hmt']
      simp [WildMap.find, findIds]
    rw [hlen1] at hfq
    exact htrans mt htailmem q _ hfq

/-! ### Lemmas about the instantiator -/

theorem apply_pat_wildcard_inv {L : Type} [DecidableEq L]
    {w : QuestionMarkName} {k : WildcardKind} {g : EGraph L} {m : WildMap}
    {ids : List Id} {g' : EGraph L}
    (h : apply_pat (.Wildcard w k) g m = some (ids, g')) :
    g' = g ∧ m.get w k = some (some ids) := by
  simp only [apply_pat] at h
  cases hg : m.get w k with
  | none => rw [hg] at h; cases h
  | some o =>
    cases o with
    | none => rw [hg] at h; cases h
    | some ids2 =>
      rw [hg] at h
      simp only [Option.some_inj, Prod.mk.injEq] at h
      obtain ⟨rfl, rfl⟩ := h
      exact ⟨rfl, rfl⟩

theorem apply_pat_node_inv {L : Type} [DecidableEq L] {op : L}
    {cs : List (Pattern L)} {g : EGraph L} {m : WildMap}
    {ids : List Id} {g' : EGraph L}
    (h : apply_pat (.ENode op cs) g m = some (ids, g')) :
    ∃ cids g1, apply_pat_list cs g m = some (cids, g1) ∧
      ids = [(g1.add ⟨op, cids⟩).1] ∧ g' = (g1.add ⟨op, cids⟩).2 := by
  simp only [apply_pat] at h
  cases hl : apply_pat_list cs g m with
  | none => rw [hl] at h; cases h
  | some cg =>
    obtain ⟨cids, g1⟩ := cg
    rw [hl] at h
    simp only [Option.some_inj, Prod.mk.injEq] at h
    obtain ⟨h1, h2⟩ := h
    exact ⟨cids, g1, rfl, h1.symm, h2.symm⟩

theorem apply_pat_list_cons_inv {L : Type} [DecidableEq L]
    {p : Pattern L} {ps : List (Pattern L)} {g : EGraph L} {m : WildMap}
    {out : List Id} {g' : EGraph L}
    (h : apply_pat_list (p :: ps) g m = some (out, g')) :
    ∃ ids1 g1 ids2, apply_pat p g m = some (ids1, g1) ∧
      apply_pat_list ps g1 m = some (ids2, g') ∧ out = ids1 ++ ids2 := by
  simp only [apply_pat_list] at h
  cases h1 : apply_pat p g m with
  | none => simp [h1] at h
  | some ig =>
    obtain ⟨ids1, g1⟩ := ig
    simp only [h1] at h
    cases h2 : apply_pat_list ps g1 m with
    | none => simp [h2] at h
    | some ig2 =>
      obtain ⟨ids2, g2⟩ := ig2
      simp only [h2, Option.some_inj, Prod.mk.injEq] at h
      obtain ⟨h3, h4⟩ := h
      subst h4
      exact ⟨ids1, g1, ids2, rfl, h2, h3.symm⟩

theorem apply_pat_single_len {L : Type} [DecidableEq L] {p : Pattern L}
    {g : EGraph L} {m : WildMap} {ids : List Id} {g' : EGraph L}
    (hnm : p.is_multi_wildcard = false) (hm : singleOk m)
    (h : apply_pat p g m = some (ids, g')) : ids.length = 1 := by
  cases p with
  | Wildcard w k =>
    obtain ⟨_, hget⟩ := apply_pat_wildcard_inv h
    cases k with
    | ZeroOrMore => simp [Pattern.is_multi_wildcard] at hnm
    | Single => exact hm _ (getIds_some_some_mem hget) rfl
  | ENode op cs =>
    obtain ⟨cids, g1, _, hids, _⟩ := apply_pat_node_inv h
    subst hids
    rfl

/-! ### The ground substitution agrees with the instantiator -/

theorem onlySingle_mem {L : Type} {op : L} {cs : List (Pattern L)}
    (h : onlySingle (Pattern.ENode op cs) = true) :
    ∀ p ∈ cs, onlySingle p = true := by
  intro p hp
  simp only [onlySingle, wildcards] at h
  simp only [onlySingle]
  rw [List.all_eq_true] at h ⊢
  intro e he
  exact h e (mem_wildcardsList.mpr ⟨p, hp, he⟩)

theorem apply_list_eq_subst_list {L : Type} [DecidableEq L] {m : WildMap} :
    ∀ (cs : List (Pattern L)),
      (∀ p ∈ cs, ∀ g, apply_pat p g m =
        Option.map (fun x => ([x.1], x.2)) (p.subst_and_find g m)) →
      ∀ g, apply_pat_list cs g m = subst_list cs g m := by
  intro cs
  induction cs with
  | nil =>
    intro _ g
    simp [apply_pat_list, subst_list]
  | cons p ps ih =>
    intro hcs g
    have hp := hcs p (List.mem_cons_self _ _) g
    simp only [apply_pat_list, subst_list]
    rw [hp]
    cases hs : p.subst_and_find g m with
    | none => simp
    | some ig =>
      obtain ⟨i, g1⟩ := ig
      simp only [Option.map_some']
      rw [ih (fun p' hp' g' => hcs p' (List.mem_cons.mpr (Or.inr hp')) g') g1]
      cases hrest : subst_list ps g1 m with
      | none => simp
      | some idg =>
        obtain ⟨ids2, g2⟩ := idg
        simp

theorem subst_eq_apply {L : Type} [DecidableEq L] {m : WildMap}
    (hm : singleOk m) :
    ∀ (p : Pattern L), onlySingle p = true → ∀ g,
      apply_pat p g m =
        Option.map (fun x => ([x.1], x.2)) (p.subst_and_find g m) := by
  intro p
  induction p using pattern_induction with
  | hw w kind =>
    intro hs g
    have hk : kind = WildcardKind.Single := by
      simpa [onlySingle, wildcards] using hs
    subst hk
    simp only [apply_pat, Pattern.subst_and_find, if_pos rfl]
    cases hg : m.get w WildcardKind.Single with
    | none => simp
    | some o =>
      cases o with
      | none => simp
      | some ids =>
        have hmem := getIds_some_some_mem hg
        have hlen := hm _ hmem rfl
        cases ids with
        | nil => simp at hlen
        | cons i rest =>
          cases rest with
          | nil => simp
          | cons _ _ => simp at hlen
  | hn op cs ihc =>
    intro hs g
    have hchild := onlySingle_mem hs
    have hlist := apply_list_eq_subst_list cs
      (fun p hp g' => ihc p hp (hchild p hp) g')
    simp only [apply_pat, Pattern.subst_and_find]
    rw [hlist g]
    cases hsl : subst_list cs g m with
    | none => simp
    | some idg =>
      obtain ⟨ids, g1⟩ := idg
      simp

theorem hasMulti_node {L : Type} {op : L} {cs : List (Pattern L)} :
    hasMulti (Pattern.ENode op cs) = true ↔ ∃ p ∈ cs, hasMulti p = true := by
  simp only [hasMulti, wildcards, List.any_eq_true]
  constructor
  · rintro ⟨e, he, hk⟩
    obtain ⟨p, hp, hep⟩ := mem_wildcardsList.mp he
    exact ⟨p, hp, ⟨e, hep, hk⟩⟩
  · rintro ⟨p, hp, e, hep, hk⟩
    exact ⟨e, mem_wildcardsList.mpr ⟨p, hp, hep⟩, hk⟩

theorem subst_list_none {L : Type} [DecidableEq L] {m : WildMap} :
    ∀ (cs : List (Pattern L)),
      (∀ p ∈ cs, hasMulti p = true → ∀ g, p.subst_and_find g m = none) →
      (∃ p ∈ cs, hasMulti p = true) → ∀ g, subst_list cs g m = none := by
  intro cs
  induction cs with
  | nil =>
    rintro _ ⟨p, hp, _⟩
    simp at hp
  | cons p ps ih =>
    rintro hcs ⟨p', hp', hmulti⟩ g
    rcases List.mem_cons.mp hp' with heq | hmem
    · subst heq
      simp only [subst_list, hcs p' (List.mem_cons_self _ _) hmulti g]
    · simp only [subst_list]
      cases hs : p.subst_and_find g m with
      | none => rfl
      | some ig =>
        obtain ⟨i, g1⟩ := ig
        simp only [ih (fun p'' hp'' => hcs p'' (List.mem_cons.mpr (Or.inr hp'')))
          ⟨p', hmem, hmulti⟩ g1]

theorem subst_multi_none {L : Type} [DecidableEq L] {m : WildMap} :
    ∀ (p : Pattern L), hasMulti p = true → ∀ (g : EGraph L),
      p.subst_and_find g m = none := by
  intro p
  induction p using pattern_induction with
  | hw w kind =>
    intro hmulti g
    have hk : kind = WildcardKind.ZeroOrMore := by
      simpa [hasMulti, wildcards] using hmulti
    subst hk
    simp [Pattern.subst_and_find]
  | hn op cs ihc =>
    intro hmulti g
    obtain ⟨p, hp, hpm⟩ := hasMulti_node.mp hmulti
    simp only [Pattern.subst_and_find]
    rw [subst_list_none cs (fun p' hp' hm' g' => ihc p' hp' hm' g') ⟨p, hp, hpm⟩ g]

/-! ### Round-trip lemmas for `from_expr` / `to_expr` -/

theorem to_from_list {L : Type} :
    ∀ (cs : List (RecExpr L)),
      (∀ c ∈ cs, Pattern.to_expr (Pattern.from_expr c) = Except.ok c) →
      to_expr_list (from_expr_list cs) = Except.ok cs := by
  intro cs
  induction cs with
  | nil => intro _; simp [from_expr_list, to_expr_list]
  | cons c rest ih =>
    intro hcs
    simp only [from_expr_list, to_expr_list,
      hcs c (List.mem_cons_self _ _),
      ih fun c' hc' => hcs c' (List.mem_cons.mpr (Or.inr hc'))]

theorem to_from_expr {L : Type} :
    ∀ (t : RecExpr L), Pattern.to_expr (Pattern.from_expr t) = Except.ok t := by
  intro t
  induction t using recexpr_induction with
  | hn op cs ih =>
    simp only [Pattern.from_expr, Pattern.to_expr, to_from_list cs ih]

theorem from_expr_list_no_wildcards {L : Type} :
    ∀ (cs : List (RecExpr L)),
      (∀ c ∈ cs, wildcards (Pattern.from_expr c) = []) →
      wildcardsList (from_expr_list cs) = [] := by
  intro cs
  induction cs with
  | nil => intro _; simp [from_expr_list, wildcardsList]
  | cons c rest ih =>
    intro hcs
    simp only [from_expr_list, wildcardsList,
      hcs c (List.mem_cons_self _ _),
      ih fun c' hc' => hcs c' (List.mem_cons.mpr (Or.inr hc')),
      List.nil_append]

theorem from_expr_no_wildcards {L : Type} :
    ∀ (t : RecExpr L), wildcards (Pattern.from_expr t) = [] := by
  intro t
  induction t using recexpr_induction with
  | hn op cs ih =>
    simp only [Pattern.from_expr, wildcards, from_expr_list_no_wildcards cs ih]

theorem to_expr_list_ok {L : Type} :
    ∀ (cs : List (Pattern L)),
      (∀ p ∈ cs, ∃ e, Pattern.to_expr p = Except.ok e) →
      ∃ es, to_expr_list cs = Except.ok es := by
  intro cs
  induction cs with
  | nil => intro _; exact ⟨[], by simp [to_expr_list]⟩
  | cons p rest ih =>
    intro hcs
    obtain ⟨e, he⟩ := hcs p (List.mem_cons_self _ _)
    obtain ⟨es, hes⟩ := ih fun p' hp' => hcs p' (List.mem_cons.mpr (Or.inr hp'))
    exact ⟨e :: es, by simp [to_expr_list, he, hes]⟩

theorem hasWildcard_node {L : Type} {op : L} {cs : List (Pattern L)}
    (h : hasWildcard (Pattern.ENode op cs) = false) :
    ∀ p ∈ cs, hasWildcard p = false := by
  intro p hp
  have h' : wildcardsList cs = [] := by
    rcases hwl : wildcardsList cs with _ | ⟨x, xs⟩
    · rfl
    · rw [hasWildcard, wildcards, hwl] at h
      simp at h
  rcases hw : wildcards p with _ | ⟨e, es⟩
  · simp [hasWildcard, hw]
  · exfalso
    have he : e ∈ wildcardsList cs :=
      mem_wildcardsList.mpr ⟨p, hp, by rw [hw]; exact List.mem_cons_self _ _⟩
    rw [h'] at he
    simp at he

theorem to_expr_ok_of_no_wildcard {L : Type} :
    ∀ (p : Pattern L), hasWildcard p = false →
      ∃ e, Pattern.to_expr p = Except.ok e := by
  intro p
  induction p using pattern_induction with
  | hw w kind =>
    intro h
    simp [hasWildcard, wildcards] at h
  | hn op cs ihc =>
    intro h
    obtain ⟨es, hes⟩ := to_expr_list_ok cs
      fun p hp => ihc p hp (hasWildcard_node h p hp)
    exact ⟨.mk op es, by simp [Pattern.to_expr, hes]⟩

theorem to_expr_list_no_wildcards {L : Type} :
    ∀ (cs : List (Pattern L)),
      (∀ p ∈ cs, ∀ e, Pattern.to_expr p = Except.ok e → wildcards p = []) →
      ∀ es, to_expr_list cs = Except.ok es → wildcardsList cs = [] := by
  intro cs
  induction cs with
  | nil => intro _ es _; simp [wildcardsList]
  | cons p rest ih =>
    intro hcs es h
    simp only [to_expr_list] at h
    cases hp : Pattern.to_expr p with
    | error msg => rw [hp] at h; cases h
    | ok e =>
      rw [hp] at h
      cases hrest : to_expr_list rest with
      | error msg => rw [hrest] at h; cases h
      | ok es' =>
        simp only [wildcardsList, hcs p (List.mem_cons_self _ _) e hp,
          ih (fun p' hp' => hcs p' (List.mem_cons.mpr (Or.inr hp'))) es' hrest,
          List.nil_append]

theorem to_expr_ok_no_wildcard {L : Type} :
    ∀ (p : Pattern L) (e : RecExpr L),
      Pattern.to_expr p = Except.ok e → wildcards p = [] := by
  intro p
  induction p using pattern_induction with
  | hw w kind =>
    intro e h
    simp [Pattern.to_expr] at h
  | hn op cs ihc =>
    intro e h
    simp only [Pattern.to_expr] at h
    cases hl : to_expr_list cs with
    | error msg => rw [hl] at h; cases h
    | ok es =>
      simp only [wildcards]
      exact to_expr_list_no_wildcards cs ihc es hl

theorem to_expr_list_error {L : Type} :
    ∀ (cs : List (Pattern L)) (msg : String),
      to_expr_list cs = Except.error msg →
      ∃ p ∈ cs, Pattern.to_expr p = Except.error msg := by
  intro cs
  induction cs with
  | nil => intro msg h; simp [to_expr_list] at h
  | cons p rest ih =>
    intro msg h
    simp only [to_expr_list] at h
    cases hp : Pattern.to_expr p with
    | error msg' =>
      rw [hp] at h
      cases h
      exact ⟨p, List.mem_cons_self _ _, hp⟩
    | ok e =>
      rw [hp] at h
      cases hrest : to_expr_list rest with
      | error msg' =>
        rw [hrest] at h
        injection h with hmsg
        obtain ⟨p', hp', he'⟩ := ih msg' hrest
        rw [hmsg] at he'
        exact ⟨p', List.mem_cons.mpr (Or.inr hp'), he'⟩
      | ok es' => rw [hrest] at h; cases h

theorem to_expr_error_names {L : Type} :
    ∀ (p : Pattern L) (msg : String),
      Pattern.to_expr p = Except.error msg →
      ∃ w k, (w, k) ∈ wildcards p ∧
        msg = "Found wildcard " ++ w ++ " instead of expr term" := by
  intro p
  induction p using pattern_induction with
  | hw w kind =>
    intro msg h
    simp only [Pattern.to_expr, Except.error.injEq] at h
    exact ⟨w, kind, by simp [wildcards], h.symm⟩
  | hn op cs ihc =>
    intro msg h
    simp only [Pattern.to_expr] at h
    cases hl : to_expr_list cs with
    | error msg' =>
      rw [hl] at h
      injection h with hmsg
      obtain ⟨p', hp', he'⟩ := to_expr_list_error cs msg' hl
      obtain ⟨w, k, hwk, hmsg2⟩ := ihc p' hp' msg' he'
      refine ⟨w, k, ?_, ?_⟩
      · simp only [wildcards]
        exact mem_wildcardsList.mpr ⟨p', hp', hwk⟩
      · rw [← hmsg]
        exact hmsg2
    | ok es => rw [hl] at h; cases h

theorem to_expr_error_of_wildcard {L : Type} :
    ∀ (p : Pattern L), hasWildcard p = true →
      ∃ msg, Pattern.to_expr p = Except.error msg := by
  intro p hw
  cases h : Pattern.to_expr p with
  | error msg => exact ⟨msg, rfl⟩
  | ok e =>
    have := to_expr_ok_no_wildcard p e h
    rw [hasWildcard, this] at hw
    simp at hw

theorem search_enodes_cons_inv {L : Type} [DecidableEq L] {op : L}
    {cs : List (Pattern L)} {g : EGraph L} {e : ENode L Id}
    {es : List (ENode L Id)} {out : List WildMap}
    (h : search_enodes op cs g (e :: es) = some out) :
    ∃ ts more, search_enode_one op cs g e = some ts ∧
      search_enodes op cs g es = some more ∧ out = ts ++ more := by
  simp only [search_enodes] at h
  cases h1 : search_enode_one op cs g e with
  | none => rw [h1] at h; cases h
  | some ts =>
    rw [h1] at h
    cases h2 : search_enodes op cs g es with
    | none => rw [h2] at h; cases h
    | some more =>
      rw [h2] at h
      rw [Option.some_inj] at h
      exact ⟨ts, more, rfl, rfl, h.symm⟩

/-! ### The claims -/

/-- C7: for any ground term `t` (a term with no wildcards),
`to_expr (from_expr t)` succeeds and returns a term equal to `t`. -/
theorem C7_round_trip {L : Type} (t : RecExpr L) :
    Pattern.to_expr (Pattern.from_expr t) = Except.ok t :=
  to_from_expr t

/-- C10: `apply_one` ignores its matched-class `Id` argument entirely: for
any two class ids the result (instantiated ids and resulting graph) is the
same, and equals `apply_pat` of the pattern, table and graph alone. -/
theorem C10_apply_one_ignores_class {L : Type} [DecidableEq L]
    (pat : Pattern L) (g : EGraph L) (c1 c2 : Id) (m : WildMap) :
    apply_one pat g c1 m = apply_one pat g c2 m ∧
    apply_one pat g c1 m = apply_pat pat g m :=
  ⟨rfl, rfl⟩

/-- C6: for a pattern node with no children matched against a class: if some
e-node of the class has no children and the pattern's operator, the matcher
yields exactly one empty binding table; if none exists, it yields none; and
it never yields more than one table regardless of the class's e-nodes. -/
theorem C6_zero_arity_match {L : Type} [DecidableEq L] (op : L) (g : EGraph L)
    (c : Id) (ns : List (ENode L Id)) (hlc : g.lookupClass c = some ns) :
    ((∃ e ∈ ns, e.children = [] ∧ e.op = op) →
      search_pat (.ENode op []) g c = some [⟨[]⟩]) ∧
    ((∀ e ∈ ns, ¬(e.children = [] ∧ e.op = op)) →
      search_pat (.ENode op []) g c = some []) ∧
    (∀ ts, search_pat (.ENode op []) g c = some ts → ts.length ≤ 1) := by
  have hunfold : search_pat (.ENode op []) g c = some (findLeaf op ns) := by
    simp [search_pat, hlc]
  refine ⟨?_, ?_, ?_⟩
  · intro hex
    rw [hunfold, findLeaf_of_exists hex]
  · intro hall
    rw [hunfold, findLeaf_of_forall hall]
  · intro ts h
    rw [hunfold] at h
    rw [Option.some_inj] at h
    rw [← h]
    exact findLeaf_length op ns

/-- C3: for every `MatchResult` produced by `search` and every binding table
in it: every wildcard name of the searched pattern is present in the table,
every `Single` entry binds exactly one id, and each name occurs at most
once. -/
theorem C3_binding_completeness {L : Type} [DecidableEq L]
    (pat : Pattern L) (g : EGraph L) (res : List SearchMatches)
    (h : search pat g = some res) :
    ∀ mr ∈ res, ∀ t ∈ mr.mappings,
      (∀ w ∈ patVars pat, t.find w ≠ none) ∧
      (∀ e ∈ t.vec, e.2.1 = WildcardKind.Single → e.2.2.length = 1) ∧
      (t.vec.map fun e => e.1).Nodup := by
  intro mr hmr t ht
  exact searchClasses_good h mr hmr t ht

/-- C9: on patterns and binding tables built only from `Single` wildcards,
`subst_and_find` returns exactly the class id whose singleton sequence the
general instantiator `apply_pat` returns, with the same final graph; and on
a pattern containing a `ZeroOrMore` wildcard, `subst_and_find` panics
(modelled as `none`) rather than returning a result. -/
theorem C9_subst_refines_apply {L : Type} [DecidableEq L] :
    (∀ (p : Pattern L) (g : EGraph L) (m : WildMap),
      onlySingle p = true → singleOk m →
      apply_pat p g m =
        Option.map (fun x => ([x.1], x.2)) (p.subst_and_find g m)) ∧
    (∀ (p : Pattern L) (g : EGraph L) (m : WildMap),
      hasMulti p = true → p.subst_and_find g m = none) :=
  ⟨fun p g m hs hm => subst_eq_apply hm p hs g,
   fun p g m hm => subst_multi_none p hm g⟩

/-- C5: instantiating a node pattern returns exactly one class id, the
hash-consed `add` of the node built from the in-order concatenation of the
children's instantiations; a wildcard returns its bound id sequence
verbatim; and any non-`ZeroOrMore` child contributes exactly one id. -/
theorem C5_instantiation_shape {L : Type} [DecidableEq L] :
    (∀ (op : L) (cs : List (Pattern L)) (g : EGraph L) (m : WildMap)
        (ids : List Id) (g' : EGraph L),
      apply_pat (.ENode op cs) g m = some (ids, g') →
      ∃ cids g1, apply_pat_list cs g m = some (cids, g1) ∧
        ids = [(g1.add ⟨op, cids⟩).1] ∧ g' = (g1.add ⟨op, cids⟩).2) ∧
    (∀ (p : Pattern L) (ps : List (Pattern L)) (g : EGraph L) (m : WildMap)
        (out : List Id) (g' : EGraph L),
      apply_pat_list (p :: ps) g m = some (out, g') →
      ∃ ids1 g1 ids2, apply_pat p g m = some (ids1, g1) ∧
        apply_pat_list ps g1 m = some (ids2, g') ∧ out = ids1 ++ ids2) ∧
    (∀ (w : QuestionMarkName) (k : WildcardKind) (g : EGraph L) (m : WildMap)
        (ids : List Id) (g' : EGraph L),
      apply_pat (.Wildcard w k) g m = some (ids, g') →
      g' = g ∧ m.get w k = some (some ids)) ∧
    (∀ (p : Pattern L) (g : EGraph L) (m : WildMap) (ids : List Id)
        (g' : EGraph L),
      p.is_multi_wildcard = false → singleOk m →
      apply_pat p g m = some (ids, g') → ids.length = 1) := by
  refine ⟨?_, ?_, ?_, ?_⟩
  · intro op cs g m ids g' h
    exact apply_pat_node_inv h
  · intro p ps g m out g' h
    exact apply_pat_list_cons_inv h
  · intro w k g m ids g' h
    exact apply_pat_wildcard_inv h
  · intro p g m ids g' hnm hm h
    exact apply_pat_single_len hnm hm h

/-- C2: when tuples of candidate tables are merged left to right, a name
already present with a different id sequence discards the whole combination,
an identical re-binding is a no-op, every accepted combination agrees with
each constituent table on every entry, and consequently every table the
matcher returns binds each name at most once. -/
theorem C2_merge_consistency :
    (∀ (combined : WildMap) (w : QuestionMarkName) (k : WildcardKind)
        (ids old : List Id)
        (rest : List (QuestionMarkName × WildcardKind × List Id)),
      combined.get w k = some (some old) → old ≠ ids →
      mergeEntries combined ((w, k, ids) :: rest) = some none) ∧
    (∀ (combined : WildMap) (w : QuestionMarkName) (k : WildcardKind)
        (ids : List Id)
        (rest : List (QuestionMarkName × WildcardKind × List Id)),
      combined.get w k = some (some ids) →
      mergeEntries combined ((w, k, ids) :: rest) = mergeEntries combined rest) ∧
    (∀ (m0 : WildMap) (ms : List WildMap) (t : WildMap),
      uniqNames m0 → mergeMaps m0 ms = some (some t) →
      ∀ m ∈ m0 :: ms, ∀ w k ids, (w, k, ids) ∈ m.vec → t.find w = some ids) ∧
    (∀ (L : Type) [DecidableEq L] (p : Pattern L) (g : EGraph L) (c : Id)
        (ts : List WildMap),
      search_pat p g c = some ts → ∀ t ∈ ts, uniqNames t) := by
  refine ⟨?_, ?_, ?_, ?_⟩
  · intro combined w k ids old rest hget hne
    simp only [mergeEntries, WildMap.insert, hget, if_neg hne]
  · intro combined w k ids rest hget
    simp only [mergeEntries, WildMap.insert, hget, if_pos rfl]
    simp
  · intro m0 ms t hu hmm m hm w k ids hmem
    rcases List.mem_cons.mp hm with heq | hms
    · subst heq
      exact mergeMaps_find_mono hmm w ids (findIds_of_mem_nodup hu hmem)
    · exact mergeMaps_covers hmm m hms w k ids hmem
  · intro L _ p g c ts h t ht
    exact (search_pat_good p g c ts h t ht).2.2

/-- C1: a pattern `(f ?a ?*rest)` matched against a class holding exactly
the e-node `f(x0, …, xk)` yields exactly one binding table, with `?a` bound
to `[x0]` and `?*rest` to `[x1, …, xk]`, and yields none when the e-node has
no children; in general, with a tail wildcard as last of `len` pattern
children, an e-node is skipped exactly when it has fewer than `len - 1`
children, and otherwise the tail wildcard binds the suffix of the e-node's
children starting at index `len - 1`. -/
theorem C1_tail_wildcard_arity {L : Type} [DecidableEq L] :
    (∀ (op : L) (a r : QuestionMarkName) (g : EGraph L) (c : Id)
        (e : ENode L Id),
      a ≠ r → g.lookupClass c = some [e] → e.op = op →
      (e.children = [] →
        search_pat (.ENode op [.Wildcard a .Single, .Wildcard r .ZeroOrMore])
          g c = some []) ∧
      (∀ x xs, e.children = x :: xs →
        search_pat (.ENode op [.Wildcard a .Single, .Wildcard r .ZeroOrMore])
          g c = some [⟨[(a, WildcardKind.Single, [x]),
                        (r, WildcardKind.ZeroOrMore, xs)]⟩])) ∧
    (∀ (op : L) (l1 : List (Pattern L)) (q : QuestionMarkName) (g : EGraph L)
        (e : ENode L Id),
      (∀ p ∈ l1, p.is_multi_wildcard = false) →
      e.children.length <
        (l1 ++ [Pattern.Wildcard q WildcardKind.ZeroOrMore]).length - 1 →
      search_enode_one op (l1 ++ [.Wildcard q .ZeroOrMore]) g e = some []) ∧
    (∀ (op : L) (l1 : List (Pattern L)) (q : QuestionMarkName) (g : EGraph L)
        (e : ENode L Id) (ts : List WildMap),
      (∀ p ∈ l1, p.is_multi_wildcard = false) →
      (l1 ++ [Pattern.Wildcard q WildcardKind.ZeroOrMore]).length - 1 ≤
        e.children.length →
      search_enode_one op (l1 ++ [.Wildcard q .ZeroOrMore]) g e = some ts →
      ∀ t ∈ ts, t.find q = some (e.children.drop
        ((l1 ++ [Pattern.Wildcard q WildcardKind.ZeroOrMore]).length - 1))) := by
  refine ⟨?_, ?_, ?_⟩
  · intro op a r g c e hne hlc hop
    have hfilter : [e].filter (fun e' => e'.op = op) = [e] := by
      simp [hop]
    have hnode := search_pat_node op
      [.Wildcard a .Single, .Wildcard r .ZeroOrMore] hlc (by simp)
    constructor
    · intro hc
      rw [hnode, hfilter, search_enodes_single,
        (search_enode_one_pair op a r hne g e).1 hc]
    · intro x xs hc
      rw [hnode, hfilter, search_enodes_single,
        (search_enode_one_pair op a r hne g e).2 x xs hc]
  · intro op l1 q g e hl1 hlen
    refine tail_skip op l1 q g e hl1 ?_
    simpa using hlen
  · intro op l1 q g e ts hl1 hlen h t ht
    have h1 : l1.length ≤ e.children.length := by simpa using hlen
    have h2 := tail_suffix op l1 q g e ts hl1 h1 h t ht
    have h3 : (l1 ++ [Pattern.Wildcard q WildcardKind.ZeroOrMore]).length - 1 =
        l1.length := by simp
    rw [h3]
    exact h2

/-- C4: a class containing two distinct e-nodes that both match the pattern
produces a `search_eclass` result whose binding-table list has length at
least two — one table derived from each matching e-node, with no
deduplication of identical tables across e-nodes. -/
theorem C4_congruence_disjunction {L : Type} [DecidableEq L]
    (op : L) (cs : List (Pattern L)) (g : EGraph L) (c : Id)
    (ns n1 n2 n3 : List (ENode L Id)) (e1 e2 : ENode L Id)
    (ts1 ts2 : List WildMap) (om : Option SearchMatches)
    (hcs : cs ≠ [])
    (hlc : g.lookupClass c = some ns)
    (hns : ns = n1 ++ e1 :: n2 ++ e2 :: n3)
    (hop1 : e1.op = op) (hop2 : e2.op = op)
    (h1 : search_enode_one op cs g e1 = some ts1) (hts1 : ts1 ≠ [])
    (h2 : search_enode_one op cs g e2 = some ts2) (hts2 : ts2 ≠ [])
    (hse : search_eclass (.ENode op cs) g c = some om) :
    ∃ mr, om = some mr ∧ 2 ≤ mr.mappings.length := by
  cases hsp : search_pat (.ENode op cs) g c with
  | none => simp [search_eclass, hsp] at hse
  | some ms =>
    have hms : search_enodes op cs g (ns.filter fun e => e.op = op) = some ms := by
      rw [← search_pat_node op cs hlc hcs]
      exact hsp
    have hfil : ns.filter (fun e => e.op = op) =
        (n1.filter fun e => e.op = op) ++ e1 ::
          ((n2.filter fun e => e.op = op) ++ e2 ::
            (n3.filter fun e => e.op = op)) := by
      subst hns
      simp [List.filter_append, List.filter_cons, hop1, hop2]
    rw [hfil] at hms
    obtain ⟨o1, rest1, _, hrest1, hsum1⟩ := search_enodes_append hms
    obtain ⟨ts1', more1, h1', hmore1, hsum2⟩ := search_enodes_cons_inv hrest1
    rw [h1] at h1'
    rw [Option.some_inj] at h1'
    subst h1'
    obtain ⟨o2, rest2, _, hrest2, hsum3⟩ := search_enodes_append hmore1
    obtain ⟨ts2', more2, h2', _, hsum4⟩ := search_enodes_cons_inv hrest2
    rw [h2] at h2'
    rw [Option.some_inj] at h2'
    subst h2'
    have hlen : 2 ≤ ms.length := by
      subst hsum1 hsum2 hsum3 hsum4
      have l1 : 1 ≤ ts1.length := List.length_pos.mpr hts1
      have l2 : 1 ≤ ts2.length := List.length_pos.mpr hts2
      simp [List.length_append]
      omega
    have hne : ¬(ms.isEmpty = true) := by
      cases ms with
      | nil => simp at hlen
      | cons _ _ => simp
    simp only [search_eclass, hsp] at hse
    rw [if_neg hne] at hse
    rw [Option.some_inj] at hse
    subst hse
    exact ⟨⟨c, ms⟩, rfl, hlen⟩

/-- C8: `from_expr` is total and produces wildcard-free patterns, `to_expr`
returns a value exactly on wildcard-free patterns, and when it fails the
returned error is a recoverable value naming an offending wildcard of the
pattern. -/
theorem C8_ground_totality {L : Type} :
    (∀ t : RecExpr L, hasWildcard (Pattern.from_expr t) = false) ∧
    (∀ p : Pattern L, hasWildcard p = false →
      ∃ e, Pattern.to_expr p = Except.ok e) ∧
    (∀ p : Pattern L, hasWildcard p = true →
      ∃ msg, Pattern.to_expr p = Except.error msg) ∧
    (∀ (p : Pattern L) (msg : String), Pattern.to_expr p = Except.error msg →
      ∃ w k, (w, k) ∈ wildcards p ∧
        msg = "Found wildcard " ++ w ++ " instead of expr term") := by
  refine ⟨?_, to_expr_ok_of_no_wildcard, to_expr_error_of_wildcard,
    to_expr_error_names⟩
  intro t
  rw [hasWildcard, from_expr_no_wildcards t]
  rfl

/-! ### Witnesses -/

theorem C1_tail_wildcard_arity_witness :
    (("?a" : QuestionMarkName) ≠ "?r") ∧
    wG.lookupClass 0 = some [wE] ∧
    (search_pat (.ENode "f" [.Wildcard "?a" .Single, .Wildcard "?r" .ZeroOrMore])
      wG 0 = some [⟨[("?a", WildcardKind.Single, [1]),
                     ("?r", WildcardKind.ZeroOrMore, [2, 3])]⟩]) ∧
    (search_enode_one "f" ([Pattern.Wildcard "?a" WildcardKind.Single] ++
        [Pattern.Wildcard "?r" WildcardKind.ZeroOrMore]) wG ⟨"f", []⟩ =
      some []) ∧
    (∀ t ∈ [(⟨[("?a", WildcardKind.Single, [1]),
               ("?r", WildcardKind.ZeroOrMore, [2, 3])]⟩ : WildMap)],
      t.find "?r" = some (List.drop
        ((([Pattern.Wildcard "?a" WildcardKind.Single] ++
           [Pattern.Wildcard "?r" WildcardKind.ZeroOrMore]) :
             List (Pattern String)).length - 1) wE.children)) := by
  have hne : ("?a" : QuestionMarkName) ≠ "?r" := by decide
  have hlc : wG.lookupClass 0 = some [wE] := by
    simp [wG, wE, EGraph.lookupClass, classesFind]
  have hop : wE.op = "f" := rfl
  have hmono : ∀ p ∈ [Pattern.Wildcard (L := String) "?a" WildcardKind.Single],
      p.is_multi_wildcard = false := by
    simp [Pattern.is_multi_wildcard]
  have hsen : search_enode_one "f"
      ([Pattern.Wildcard "?a" WildcardKind.Single] ++
        [Pattern.Wildcard "?r" WildcardKind.ZeroOrMore]) wG wE =
      some [⟨[("?a", WildcardKind.Single, [1]),
              ("?r", WildcardKind.ZeroOrMore, [2, 3])]⟩] := by
    simp [search_enode_one, search_pat_list, search_pat_wildcard_single, wE,
      combineAll, cartesian, processTuples, mergeMaps, mergeEntries,
      WildMap.insert, WildMap.get, getIds, findMulti,
      Pattern.is_multi_wildcard]
  refine ⟨hne, hlc, ?_, ?_, ?_⟩
  · exact (C1_tail_wildcard_arity.1 "f" "?a" "?r" wG 0 wE hne hlc hop).2
      1 [2, 3] rfl
  · exact C1_tail_wildcard_arity.2.1 "f"
      [Pattern.Wildcard "?a" WildcardKind.Single] "?r" wG ⟨"f", []⟩
      hmono (by simp)
  · exact C1_tail_wildcard_arity.2.2 "f"
      [Pattern.Wildcard "?a" WildcardKind.Single] "?r" wG wE _
      hmono (by simp [wE]) hsen

theorem C2_merge_consistency_witness :
    (WildMap.get ⟨[("?a", WildcardKind.Single, [0])]⟩ "?a" WildcardKind.Single
      = some (some [0])) ∧
    mergeEntries ⟨[("?a", WildcardKind.Single, [0])]⟩
      [("?a", WildcardKind.Single, [1])] = some none ∧
    mergeEntries ⟨[("?a", WildcardKind.Single, [0])]⟩
      [("?a", WildcardKind.Single, [0])] =
      mergeEntries ⟨[("?a", WildcardKind.Single, [0])]⟩ [] ∧
    uniqNames ⟨[("?a", WildcardKind.Single, [0])]⟩ ∧
    mergeMaps ⟨[("?a", WildcardKind.Single, [0])]⟩
      [⟨[("?a", WildcardKind.Single, [0])]⟩] =
      some (some ⟨[("?a", WildcardKind.Single, [0])]⟩) ∧
    (∀ m ∈ [(⟨[("?a", WildcardKind.Single, [0])]⟩ : WildMap),
            ⟨[("?a", WildcardKind.Single, [0])]⟩],
      ∀ w k ids, (w, k, ids) ∈ m.vec →
        WildMap.find ⟨[("?a", WildcardKind.Single, [0])]⟩ w = some ids) ∧
    (search_pat (Pattern.Wildcard "?z" WildcardKind.Single)
      (⟨[], [], 0⟩ : EGraph String) 7 =
      some [⟨[("?z", WildcardKind.Single, [7])]⟩]) ∧
    (∀ t ∈ [(⟨[("?z", WildcardKind.Single, [7])]⟩ : WildMap)], uniqNames t) := by
  have hget : WildMap.get ⟨[("?a", WildcardKind.Single, [0])]⟩ "?a"
      WildcardKind.Single = some (some [0]) := by
    simp [WildMap.get, getIds]
  have hu : uniqNames (⟨[("?a", WildcardKind.Single, [0])]⟩ : WildMap) := by
    simp [uniqNames]
  have hmm : mergeMaps ⟨[("?a", WildcardKind.Single, [0])]⟩
      [⟨[("?a", WildcardKind.Single, [0])]⟩] =
      some (some ⟨[("?a", WildcardKind.Single, [0])]⟩) := by
    simp [mergeMaps, mergeEntries, WildMap.insert, WildMap.get, getIds]
  have hsp : search_pat (Pattern.Wildcard "?z" WildcardKind.Single)
      (⟨[], [], 0⟩ : EGraph String) 7 =
      some [⟨[("?z", WildcardKind.Single, [7])]⟩] :=
    search_pat_wildcard_single "?z" _ 7
  refine ⟨hget, ?_, ?_, hu, hmm, ?_, hsp, ?_⟩
  · exact C2_merge_consistency.1 _ "?a" WildcardKind.Single [1] [0] [] hget
      (by decide)
  · exact C2_merge_consistency.2.1 _ "?a" WildcardKind.Single [0] [] hget
  · exact C2_merge_consistency.2.2.1 _ _ _ hu hmm
  · exact C2_merge_consistency.2.2.2 String
      (Pattern.Wildcard "?z" WildcardKind.Single) ⟨[], [], 0⟩ 7 _ hsp

theorem C3_binding_completeness_witness :
    search (Pattern.Wildcard "?a" WildcardKind.Single) wG3 =
      some [⟨0, [⟨[("?a", WildcardKind.Single, [0])]⟩]⟩] ∧
    (∀ mr ∈ [(⟨0, [⟨[("?a", WildcardKind.Single, [0])]⟩]⟩ : SearchMatches)],
      ∀ t ∈ mr.mappings,
        (∀ w ∈ patVars (Pattern.Wildcard (L := String) "?a"
          WildcardKind.Single), t.find w ≠ none) ∧
        (∀ e ∈ t.vec, e.2.1 = WildcardKind.Single → e.2.2.length = 1) ∧
        (t.vec.map fun e => e.1).Nodup) := by
  have h : search (Pattern.Wildcard "?a" WildcardKind.Single) wG3 =
      some [⟨0, [⟨[("?a", WildcardKind.Single, [0])]⟩]⟩] := by
    simp [search, searchClasses, search_eclass, wG3, search_pat_wildcard_single]
  exact ⟨h, C3_binding_completeness _ _ _ h⟩

theorem C4_congruence_disjunction_witness :
    (search_enode_one "f" [Pattern.Wildcard "?x" WildcardKind.Single] wG4
      ⟨"f", [1]⟩ = some [⟨[("?x", WildcardKind.Single, [1])]⟩]) ∧
    (search_enode_one "f" [Pattern.Wildcard "?x" WildcardKind.Single] wG4
      ⟨"f", [2]⟩ = some [⟨[("?x", WildcardKind.Single, [2])]⟩]) ∧
    (search_eclass (.ENode "f" [.Wildcard "?x" .Single]) wG4 0 =
      some (some ⟨0, [⟨[("?x", WildcardKind.Single, [1])]⟩,
                      ⟨[("?x", WildcardKind.Single, [2])]⟩]⟩)) ∧
    (∃ mr, (some (⟨0, [⟨[("?x", WildcardKind.Single, [1])]⟩,
        ⟨[("?x", WildcardKind.Single, [2])]⟩]⟩ : SearchMatches) :
          Option SearchMatches) = some mr ∧ 2 ≤ mr.mappings.length) := by
  have h1 : search_enode_one "f" [Pattern.Wildcard "?x" WildcardKind.Single]
      wG4 ⟨"f", [1]⟩ = some [⟨[("?x", WildcardKind.Single, [1])]⟩] := by
    simp [search_enode_one, search_pat_list, search_pat_wildcard_single,
      combineAll, cartesian, processTuples, mergeMaps, mergeEntries,
      Pattern.is_multi_wildcard]
  have h2 : search_enode_one "f" [Pattern.Wildcard "?x" WildcardKind.Single]
      wG4 ⟨"f", [2]⟩ = some [⟨[("?x", WildcardKind.Single, [2])]⟩] := by
    simp [search_enode_one, search_pat_list, search_pat_wildcard_single,
      combineAll, cartesian, processTuples, mergeMaps, mergeEntries,
      Pattern.is_multi_wildcard]
  have hlc : wG4.lookupClass 0 = some [⟨"f", [1]⟩, ⟨"f", [2]⟩] := by
    simp [wG4, EGraph.lookupClass, classesFind]
  have hse : search_eclass (.ENode "f" [.Wildcard "?x" .Single]) wG4 0 =
      some (some ⟨0, [⟨[("?x", WildcardKind.Single, [1])]⟩,
                      ⟨[("?x", WildcardKind.Single, [2])]⟩]⟩) := by
    simp [search_eclass, search_pat, search_enodes, hlc, h1, h2]
  refine ⟨h1, h2, hse, ?_⟩
  exact C4_congruence_disjunction "f" [Pattern.Wildcard "?x" WildcardKind.Single]
    wG4 0 [⟨"f", [1]⟩, ⟨"f", [2]⟩] [] [] [] ⟨"f", [1]⟩ ⟨"f", [2]⟩
    [⟨[("?x", WildcardKind.Single, [1])]⟩]
    [⟨[("?x", WildcardKind.Single, [2])]⟩] _
    (by simp) hlc rfl rfl rfl h1 (by simp) h2 (by simp) hse

theorem C5_instantiation_shape_witness :
    (apply_pat (.ENode "g" [.Wildcard "?a" .Single]) wG5 wM5 =
      some ([1], ⟨[⟨1, [⟨"g", [0]⟩]⟩], [(⟨"g", [0]⟩, 1)], 2⟩)) ∧
    (∃ cids g1, apply_pat_list [Pattern.Wildcard "?a" WildcardKind.Single]
        wG5 wM5 = some (cids, g1) ∧
      [1] = [(g1.add ⟨"g", cids⟩).1] ∧
      (⟨[⟨1, [⟨"g", [0]⟩]⟩], [(⟨"g", [0]⟩, 1)], 2⟩ : EGraph String) =
        (g1.add ⟨"g", cids⟩).2) ∧
    (apply_pat_list [Pattern.Wildcard "?r" WildcardKind.ZeroOrMore,
        Pattern.Wildcard "?a" WildcardKind.Single] wG5 wM5 =
      some ([5, 6, 0], wG5)) ∧
    (∃ ids1 g1 ids2,
      apply_pat (Pattern.Wildcard "?r" WildcardKind.ZeroOrMore) wG5 wM5 =
        some (ids1, g1) ∧
      apply_pat_list [Pattern.Wildcard "?a" WildcardKind.Single] g1 wM5 =
        some (ids2, wG5) ∧ [5, 6, 0] = ids1 ++ ids2) ∧
    (apply_pat (.Wildcard "?r" .ZeroOrMore) wG5 wM5 = some ([5, 6], wG5)) ∧
    (wG5 = wG5 ∧ wM5.get "?r" WildcardKind.ZeroOrMore = some (some [5, 6])) ∧
    ((Pattern.Wildcard (L := String) "?a"
      WildcardKind.Single).is_multi_wildcard = false) ∧
    singleOk wM5 ∧
    (apply_pat (.Wildcard "?a" .Single) wG5 wM5 = some ([0], wG5)) ∧
    ([0] : List Id).length = 1 := by
  have hnode : apply_pat (.ENode "g" [.Wildcard "?a" .Single]) wG5 wM5 =
      some ([1], ⟨[⟨1, [⟨"g", [0]⟩]⟩], [(⟨"g", [0]⟩, 1)], 2⟩) := by
    simp [apply_pat, apply_pat_list, WildMap.get, getIds, wM5, wG5,
      EGraph.add, memoFind]
  have hcons : apply_pat_list [Pattern.Wildcard "?r" WildcardKind.ZeroOrMore,
      Pattern.Wildcard "?a" WildcardKind.Single] wG5 wM5 =
      some ([5, 6, 0], wG5) := by
    simp [apply_pat, apply_pat_list, WildMap.get, getIds, wM5]
  have hwc : apply_pat (.Wildcard "?r" .ZeroOrMore) wG5 wM5 =
      some ([5, 6], wG5) := by
    simp [apply_pat, WildMap.get, getIds, wM5]
  have hsingle : apply_pat (.Wildcard "?a" .Single) wG5 wM5 =
      some ([0], wG5) := by
    simp [apply_pat, WildMap.get, getIds, wM5]
  have hmulti : (Pattern.Wildcard (L := String) "?a"
      WildcardKind.Single).is_multi_wildcard = false := rfl
  have hok : singleOk wM5 := by
    intro e he hk
    simp [wM5] at he
    rcases he with he | he
    · rw [he]
      rfl
    · rw [he] at hk
      cases hk
  refine ⟨hnode, C5_instantiation_shape.1 "g" _ wG5 wM5 _ _ hnode,
    hcons, C5_instantiation_shape.2.1 _ _ wG5 wM5 _ _ hcons,
    hwc, C5_instantiation_shape.2.2.1 "?r" WildcardKind.ZeroOrMore wG5 wM5
      _ _ hwc,
    hmulti, hok, hsingle,
    C5_instantiation_shape.2.2.2 _ wG5 wM5 _ _ hmulti hok hsingle⟩

theorem C6_zero_arity_match_witness :
    wG6.lookupClass 0 = some [⟨"c", []⟩] ∧
    (∃ e ∈ [(⟨"c", []⟩ : ENode String Id)], e.children = [] ∧ e.op = "c") ∧
    search_pat (.ENode "c" []) wG6 0 = some [⟨[]⟩] ∧
    wG6.lookupClass 1 = some [⟨"d", [0]⟩] ∧
    (∀ e ∈ [(⟨"d", [0]⟩ : ENode String Id)],
      ¬(e.children = [] ∧ e.op = "c")) ∧
    search_pat (.ENode "c" []) wG6 1 = some [] := by
  have hlc0 : wG6.lookupClass 0 = some [⟨"c", []⟩] := by
    simp [wG6, EGraph.lookupClass, classesFind]
  have hlc1 : wG6.lookupClass 1 = some [⟨"d", [0]⟩] := by
    simp [wG6, EGraph.lookupClass, classesFind]
  have hex : ∃ e ∈ [(⟨"c", []⟩ : ENode String Id)],
      e.children = [] ∧ e.op = "c" :=
    ⟨⟨"c", []⟩, List.mem_singleton.mpr rfl, rfl, rfl⟩
  have hall : ∀ e ∈ [(⟨"d", [0]⟩ : ENode String Id)],
      ¬(e.children = [] ∧ e.op = "c") := by
    intro e he
    simp at he
    rw [he]
    rintro ⟨hc, _⟩
    cases hc
  exact ⟨hlc0, hex, (C6_zero_arity_match "c" wG6 0 _ hlc0).1 hex,
    hlc1, hall, (C6_zero_arity_match "c" wG6 1 _ hlc1).2.1 hall⟩

theorem C8_ground_totality_witness :
    hasWildcard (Pattern.ENode (L := String) "x" []) = false ∧
    (∃ e, Pattern.to_expr (Pattern.ENode (L := String) "x" []) =
      Except.ok e) ∧
    hasWildcard (Pattern.Wildcard (L := String) "?a" WildcardKind.Single)
      = true ∧
    (∃ msg, Pattern.to_expr
      (Pattern.Wildcard (L := String) "?a" WildcardKind.Single) =
      Except.error msg) ∧
    (∃ w k, (w, k) ∈ wildcards
        (Pattern.Wildcard (L := String) "?a" WildcardKind.Single) ∧
      "Found wildcard ?a instead of expr term" =
        "Found wildcard " ++ w ++ " instead of expr term") := by
  have h1 : hasWildcard (Pattern.ENode (L := String) "x" []) = false := by
    simp [hasWildcard, wildcards, wildcardsList]
  have h2 : hasWildcard
      (Pattern.Wildcard (L := String) "?a" WildcardKind.Single) = true := by
    simp [hasWildcard, wildcards]
  have h3 : Pattern.to_expr
      (Pattern.Wildcard (L := String) "?a" WildcardKind.Single) =
      Except.error "Found wildcard ?a instead of expr term" := by
    simp only [Pattern.to_expr]
    rfl
  exact ⟨h1, C8_ground_totality.2.1 _ h1, h2, C8_ground_totality.2.2.1 _ h2,
    C8_ground_totality.2.2.2 _ _ h3⟩

theorem C9_subst_refines_apply_witness :
    onlySingle (Pattern.ENode (L := String) "+"
      [Pattern.Wildcard "?a" WildcardKind.Single]) = true ∧
    singleOk ⟨[("?a", WildcardKind.Single, [0])]⟩ ∧
    (apply_pat (Pattern.ENode "+" [Pattern.Wildcard "?a" WildcardKind.Single])
        wG9 ⟨[("?a", WildcardKind.Single, [0])]⟩ =
      Option.map (fun x => ([x.1], x.2))
        ((Pattern.ENode "+"
          [Pattern.Wildcard "?a" WildcardKind.Single]).subst_and_find wG9
          ⟨[("?a", WildcardKind.Single, [0])]⟩)) ∧
    hasMulti (Pattern.Wildcard (L := String) "?r" WildcardKind.ZeroOrMore)
      = true ∧
    (Pattern.Wildcard (L := String) "?r"
      WildcardKind.ZeroOrMore).subst_and_find wG9 ⟨[]⟩ = none := by
  have h1 : onlySingle (Pattern.ENode (L := String) "+"
      [Pattern.Wildcard "?a" WildcardKind.Single]) = true := by
    simp [onlySingle, wildcards, wildcardsList]
  have h2 : singleOk (⟨[("?a", WildcardKind.Single, [0])]⟩ : WildMap) := by
    intro e he hk
    simp at he
    rw [he]
    rfl
  have h3 : hasMulti
      (Pattern.Wildcard (L := String) "?r" WildcardKind.ZeroOrMore) = true := by
    simp [hasMulti, wildcards]
  exact ⟨h1, h2, C9_subst_refines_apply.1 _ wG9 _ h1 h2, h3,
    C9_subst_refines_apply.2 _ wG9 ⟨[]⟩ h3⟩

end EggPattern
